import Mathlib

/-!
# Verification of the HDF5 VFD-SWMR page buffer against its specification

This development gives a shallow embedding, in Lean 4, of the page buffer
core (`H5PB2.c`) and of the reader-side metadata-file decoder
(`H5FDvfd_swmr.c`) of the VFD-SWMR branch of the HDF5 library, and settles
a list of claims about them.

Modelling conventions:
* machine addresses, sizes and ticks are `Nat`; byte stores are functions
  `Nat → Nat`;
* the C intrusive doubly-linked lists (LRU, delayed-write list, tick list)
  are Lean lists of page numbers, with the hash index an association list
  of entries keyed by page number;
* fallible C functions (`herr_t` returns) become `Option`-valued Lean
  functions, `none` standing for `FAIL`;
* `HDassert` is a release-build no-op and is modelled as such; where a
  claim depends on an assertion this is discussed at the claim;
* the compile-time `VFD_IO` switch selects the direct-to-driver I/O path,
  which the specification designates as canonical;
* the replacement-policy / list macros of `H5PBpkg.h` and the function
  `H5F_vfd_swmr_writer__delay_write` are not part of the provided sources;
  they are modelled from the specification (see the individual doc
  comments marked "Modelled from the spec").
-/

set_option autoImplicit false

namespace HDF5PB

/-- Memory/access type: the page buffer only distinguishes raw data
(`H5FD_MEM_DRAW`) from everything else (metadata). -/
inductive MemT where
  | draw
  | meta
  deriving DecidableEq, Repr

/-- Read `n` bytes starting at address `a` from a byte store. -/
def readBytes (m : Nat → Nat) (a n : Nat) : List Nat :=
  (List.range n).map (fun i => m (a + i))

/-- Overlay the buffer `B` on the byte store at address `a`
(the effect of a driver-level write). -/
def writeBytes (m : Nat → Nat) (a : Nat) (B : List Nat) : Nat → Nat :=
  fun x => if a ≤ x ∧ x < a + B.length then B.getD (x - a) 0 else m x

/-- Overlay an image (a function from offsets to bytes) of length `sz`
on the byte store at address `a`. -/
def overlayImage (m : Nat → Nat) (a : Nat) (img : Nat → Nat) (sz : Nat) :
    Nat → Nat :=
  fun x => if a ≤ x ∧ x < a + sz then img (x - a) else m x

/-- Patch an image with buffer `B` at offset `off`
(the effect of `HDmemcpy(image + off, buf, B.length)`). -/
def patchImage (img : Nat → Nat) (off : Nat) (B : List Nat) : Nat → Nat :=
  fun o => if off ≤ o ∧ o < off + B.length then B.getD (o - off) 0 else img o

/-- The in-memory record for one page or one multi-page metadata entry
(`H5PB_entry_t`).  List membership is carried by the containing `PB`
structure instead of intrusive links. -/
structure Entry where
  page : Nat
  addr : Nat
  size : Nat
  image : Nat → Nat
  isMetadata : Bool
  isMpmde : Bool
  isDirty : Bool
  loaded : Bool
  modifiedThisTick : Bool
  delayWriteUntil : Nat

/-- The page buffer (`H5PB_t`).  `index` is the hash index (keyed by
`Entry.page`); `lru`, `dwl`, `tl` list the page numbers of the entries on
the replacement policy, the delayed write list and the tick list.  The
`lru` list is most-recently-used first; the `dwl` is kept sorted by
decreasing `delayWriteUntil`. -/
structure PB where
  pageSize : Nat
  maxPages : Nat
  minMdPages : Nat
  minRdPages : Nat
  vfdSwmrWriter : Bool
  curTick : Nat
  index : List Entry
  lru : List Nat
  dwl : List Nat
  tl : List Nat

/-- `H5PB__SEARCH_INDEX`: look up the entry at a page number. -/
def searchIndex (pb : PB) (page : Nat) : Option Entry :=
  pb.index.find? (fun e => e.page == page)

/-- Update the entry at a page number in place. -/
def setEntry (pb : PB) (page : Nat) (f : Entry → Entry) : PB :=
  { pb with index := pb.index.map (fun e => if e.page == page then f e else e) }

/-- `H5PB__INSERT_IN_INDEX`: insert a (fresh) entry in the hash index. -/
def insertInIndex (pb : PB) (e : Entry) : PB :=
  { pb with index := e :: pb.index }

/-- `H5PB__DELETE_FROM_INDEX`: remove the entry at a page number. -/
def deleteFromIndex (pb : PB) (page : Nat) : PB :=
  { pb with index := pb.index.filter (fun e => e.page ≠ page) }

/-- `curr_pages`: number of entries currently in the page buffer. -/
def currPages (pb : PB) : Nat := pb.index.length

/-- `curr_md_pages`: metadata pages, multi-page metadata entries not
counted. -/
def currMdPages (pb : PB) : Nat :=
  (pb.index.filter (fun e => e.isMetadata && !e.isMpmde)).length

/-- `curr_rd_pages`: raw data pages. -/
def currRdPages (pb : PB) : Nat :=
  (pb.index.filter (fun e => !e.isMetadata)).length

/-- Modelled from the spec (`H5PB__UPDATE_RP_FOR_INSERTION`, a macro of
the missing `H5PBpkg.h`): insert a page at the head of the LRU. -/
def rpInsert (pb : PB) (page : Nat) : PB :=
  { pb with lru := page :: pb.lru }

/-- Modelled from the spec (`H5PB__UPDATE_RP_FOR_INSERT_APPEND`): append
a page at the tail of the LRU. -/
def rpInsertAppend (pb : PB) (page : Nat) : PB :=
  { pb with lru := pb.lru ++ [page] }

/-- Modelled from the spec (`H5PB__UPDATE_RP_FOR_ACCESS`, also used for
`H5PB__UPDATE_RP_FOR_FLUSH`): move a page to the head of the LRU. -/
def rpAccess (pb : PB) (page : Nat) : PB :=
  { pb with lru := page :: pb.lru.filter (fun q => q ≠ page) }

/-- Modelled from the spec (`H5PB__UPDATE_RP_FOR_EVICTION` /
`H5PB__UPDATE_RP_FOR_REMOVE`): remove a page from the LRU. -/
def rpRemove (pb : PB) (page : Nat) : PB :=
  { pb with lru := pb.lru.filter (fun q => q ≠ page) }

/-- The `delayWriteUntil` of the entry at a page (0 when absent). -/
def delayOfPage (pb : PB) (page : Nat) : Nat :=
  ((searchIndex pb page).map Entry.delayWriteUntil).getD 0

/-- Whether the entry at a page is dirty (false when absent). -/
def dirtyAtPage (pb : PB) (page : Nat) : Bool :=
  ((searchIndex pb page).map Entry.isDirty).getD false

/-- Modelled from the spec ("the DWL is kept sorted by decreasing
deadline"): insert a page before the first member whose deadline is
smaller. -/
def dwlInsertList (delays : Nat → Nat) (d page : Nat) :
    List Nat → List Nat
  | [] => [page]
  | q :: rest =>
      if delays q < d then page :: q :: rest
      else q :: dwlInsertList delays d page rest

/-- `H5PB__INSERT_IN_DWL`. -/
def dwlInsert (pb : PB) (page : Nat) : PB :=
  { pb with
    dwl := dwlInsertList (delayOfPage pb) (delayOfPage pb page) page pb.dwl }

/-- `H5PB__REMOVE_FROM_DWL`. -/
def dwlRemove (pb : PB) (page : Nat) : PB :=
  { pb with dwl := pb.dwl.filter (fun q => q ≠ page) }

/-- `H5PB__INSERT_IN_TL`. -/
def tlInsert (pb : PB) (page : Nat) : PB :=
  { pb with tl := page :: pb.tl }

/-- `H5PB__REMOVE_FROM_TL`. -/
def tlRemove (pb : PB) (page : Nat) : PB :=
  { pb with tl := pb.tl.filter (fun q => q ≠ page) }

/-- The underlying file driver's state: byte contents and EOF. -/
structure FD where
  bytes : Nat → Nat
  eof : Nat

/-- `H5PB__mark_entry_clean`: unset the dirty flag of the entry at
`page` (index accounting only; replacement-policy placement is the
caller's job). -/
def markEntryClean (pb : PB) (page : Nat) : PB :=
  setEntry pb page (fun e => { e with isDirty := false })

/-- The `delay_write_until` value installed by
`H5F_vfd_swmr_writer__delay_write`, a function not among the provided
sources.  Modelled from the spec: `swmr.request_write_delay(page)`
returns a tick delta, `0` if no delay is required; a non-zero delta `d`
delays writes until tick `cur_tick + d`. -/
def delayUntilOf (delayOf : Nat → Nat) (curTick page : Nat) : Nat :=
  if delayOf page = 0 then 0 else curTick + delayOf page

/-- `H5PB__mark_entry_dirty` (the entry at `page` must exist; on an
absent page this is the identity).  `delayOf` abstracts the SWMR
subsystem's per-page write-delay request. -/
def markEntryDirty (delayOf : Nat → Nat) (pb : PB) (page : Nat) : PB :=
  match searchIndex pb page with
  | none => pb
  | some e =>
    if !e.isDirty then
      let du : Nat :=
        if pb.vfdSwmrWriter && e.loaded && e.isMetadata then
          delayUntilOf delayOf pb.curTick e.page
        else 0
      let pb1 := setEntry pb page
        (fun e' => { e' with isDirty := true, delayWriteUntil := du })
      if du > 0 then
        let pb2 := if !e.isMpmde then rpRemove pb1 page else pb1
        dwlInsert pb2 page
      else if !e.isMpmde then
        rpAccess pb1 page
      else
        pb1
    else if !e.isMpmde && e.delayWriteUntil == 0 then
      rpAccess pb page
    else
      pb

/-- `H5PB__flush_entry`: write the entry's image to the file, mark it
clean, and if it is on the LRU move it to the LRU head. -/
def flushEntry (pb : PB) (fd : FD) (page : Nat) : PB × FD :=
  match searchIndex pb page with
  | none => (pb, fd)
  | some e =>
    let fd' : FD := { fd with bytes := overlayImage fd.bytes e.addr e.image e.size }
    let pb1 := markEntryClean pb page
    let pb2 :=
      if !e.isMpmde && e.delayWriteUntil == 0 then rpAccess pb1 page else pb1
    (pb2, fd')

/-- `H5PB__evict_entry`: evict the entry at `page`.  Without `force`,
a dirty entry or a violation of the per-class minimum is an error; with
`force` a dirty entry is first marked clean. -/
def evictEntry (pb : PB) (page : Nat) (force : Bool) : Option PB :=
  match searchIndex pb page with
  | none => none
  | some e =>
    if !force && e.isDirty then none
    else if !force && e.isMetadata && currMdPages pb < pb.minMdPages then none
    else if !force && !e.isMetadata && currRdPages pb < pb.minRdPages then none
    else
      let pb1 := if force && e.isDirty then markEntryClean pb page else pb
      let pb2 := if !e.isMpmde then rpRemove pb1 page else pb1
      some (deleteFromIndex pb2 page)

/-- `H5PB__create_new_page`: create a page (or multi-page metadata
entry) of `size` bytes at `addr` and insert it in the page buffer; error
if an entry already exists at that page.  A fresh image is zeroed
(`clean_image`) or about to be fully overwritten by the caller, so it is
the constant-0 function either way. -/
def createNewPage (pb : PB) (addr size : Nat) (type : MemT) :
    Option (PB × Nat) :=
  let page := addr / pb.pageSize
  match searchIndex pb page with
  | some _ => none
  | none =>
    let e : Entry :=
      { page := page
        addr := addr
        size := size
        image := fun _ => 0
        isMetadata := type ≠ MemT.draw
        isMpmde := (type ≠ MemT.draw) && size > pb.pageSize
        isDirty := false
        loaded := false
        modifiedThisTick := false
        delayWriteUntil := 0 }
    let pb1 := insertInIndex pb e
    let pb2 := if !e.isMpmde then rpInsert pb1 page else pb1
    some (pb2, page)

/-- Number of dirty entries among the pages of `walk` (the termination
measure component for the `make_space` scan). -/
def dirtyCount (pb : PB) (walk : List Nat) : Nat :=
  walk.countP (fun q => dirtyAtPage pb q)

theorem find?_map_page (f : Entry → Entry) (hf : ∀ e, (f e).page = e.page)
    (l : List Entry) (p q : Nat) :
    (l.map (fun e => if e.page == p then f e else e)).find?
        (fun e => e.page == q) =
      if p = q then (l.find? (fun e => e.page == q)).map f
      else l.find? (fun e => e.page == q) := by
  induction l with
  | nil => simp
  | cons a l ih =>
    by_cases hap : a.page = p
    · by_cases hpq : p = q
      · subst hpq
        simp [List.find?, hap, hf]
      · simp only [List.map_cons, List.find?]
        have h1 : (if a.page == p then f a else a).page = a.page := by
          split <;> simp [hf]
        have h2 : ((if a.page == p then f a else a).page == q) = false := by
          rw [h1, hap]
          simpa using hpq
        have h3 : (a.page == q) = false := by
          rw [hap]
          simpa using hpq
        simp only [h2, h3, cond_false]
        simpa [hpq] using ih
    · simp only [List.map_cons, List.find?]
      have h1 : (if a.page == p then f a else a) = a := by
        simp [hap]
      rw [h1]
      by_cases haq : a.page = q
      · have h2 : (a.page == q) = true := by simp [haq]
        have hpq : ¬ p = q := by
          intro h
          exact hap (h ▸ haq)
        simp only [h2, cond_true]
        simp [hpq]
      · have h2 : (a.page == q) = false := by simp [haq]
        simp only [h2, cond_false]
        exact ih

theorem searchIndex_setEntry (pb : PB) (p q : Nat) (f : Entry → Entry)
    (hf : ∀ e, (f e).page = e.page) :
    searchIndex (setEntry pb p f) q =
      if p = q then (searchIndex pb q).map f else searchIndex pb q := by
  simpa [searchIndex, setEntry] using find?_map_page f hf pb.index p q

theorem find?_filter_page (l : List Entry) (p q : Nat) :
    (l.filter (fun e => e.page ≠ p)).find? (fun e => e.page == q) =
      if p = q then none else l.find? (fun e => e.page == q) := by
  induction l with
  | nil => simp
  | cons a l ih =>
    by_cases hap : a.page = p
    · have h0 : (decide ¬ a.page = p) = false := by simp [hap]
      simp only [List.filter_cons, h0, Bool.false_eq_true, if_false]
      rw [ih]
      by_cases hpq : p = q
      · simp [hpq]
      · have h2 : (a.page == q) = false := by
          rw [hap]
          simpa using hpq
        simp [hpq, List.find?, h2]
    · have h0 : (decide ¬ a.page = p) = true := by simp [hap]
      simp only [List.filter_cons, h0, if_true, List.find?]
      by_cases haq : a.page = q
      · have h2 : (a.page == q) = true := by simp [haq]
        have hpq : ¬ p = q := by
          intro h
          exact hap (h ▸ haq)
        simp [h2, hpq]
      · have h2 : (a.page == q) = false := by simp [haq]
        simp only [h2, cond_false]
        exact ih

theorem searchIndex_deleteFromIndex (pb : PB) (p q : Nat) :
    searchIndex (deleteFromIndex pb p) q =
      if p = q then none else searchIndex pb q := by
  simpa [searchIndex, deleteFromIndex] using find?_filter_page pb.index p q

theorem searchIndex_insertInIndex (pb : PB) (e : Entry) (q : Nat) :
    searchIndex (insertInIndex pb e) q =
      if e.page = q then some e else searchIndex pb q := by
  by_cases h : e.page = q
  · simp [searchIndex, insertInIndex, List.find?, h]
  · have : (e.page == q) = false := by simp [h]
    simp [searchIndex, insertInIndex, List.find?, this, h]

@[simp] theorem searchIndex_rpInsert (pb : PB) (p q : Nat) :
    searchIndex (rpInsert pb p) q = searchIndex pb q := rfl

@[simp] theorem searchIndex_rpInsertAppend (pb : PB) (p q : Nat) :
    searchIndex (rpInsertAppend pb p) q = searchIndex pb q := rfl

@[simp] theorem searchIndex_rpAccess (pb : PB) (p q : Nat) :
    searchIndex (rpAccess pb p) q = searchIndex pb q := rfl

@[simp] theorem searchIndex_rpRemove (pb : PB) (p q : Nat) :
    searchIndex (rpRemove pb p) q = searchIndex pb q := rfl

@[simp] theorem searchIndex_dwlInsert (pb : PB) (p q : Nat) :
    searchIndex (dwlInsert pb p) q = searchIndex pb q := rfl

@[simp] theorem searchIndex_dwlRemove (pb : PB) (p q : Nat) :
    searchIndex (dwlRemove pb p) q = searchIndex pb q := rfl

@[simp] theorem searchIndex_tlInsert (pb : PB) (p q : Nat) :
    searchIndex (tlInsert pb p) q = searchIndex pb q := rfl

@[simp] theorem searchIndex_tlRemove (pb : PB) (p q : Nat) :
    searchIndex (tlRemove pb p) q = searchIndex pb q := rfl

theorem searchIndex_markEntryClean (pb : PB) (p q : Nat) :
    searchIndex (markEntryClean pb p) q =
      if p = q then
        (searchIndex pb q).map (fun e => { e with isDirty := false })
      else searchIndex pb q := by
  unfold markEntryClean
  exact searchIndex_setEntry pb p q (fun e => { e with isDirty := false })
    (fun e => rfl)

theorem dirtyAtPage_markEntryClean (pb : PB) (p q : Nat) :
    dirtyAtPage (markEntryClean pb p) q =
      if q = p then false else dirtyAtPage pb q := by
  unfold dirtyAtPage
  rw [searchIndex_markEntryClean]
  by_cases h : p = q
  · subst h
    simp only [if_pos rfl]
    cases searchIndex pb p <;> simp
  · have h' : ¬ q = p := fun hh => h hh.symm
    simp [h, h']

theorem flushEntry_fst (pb : PB) (fd : FD) (p : Nat) (e : Entry)
    (he : searchIndex pb p = some e) :
    (flushEntry pb fd p).1 =
      if !e.isMpmde && e.delayWriteUntil == 0 then
        rpAccess (markEntryClean pb p) p
      else markEntryClean pb p := by
  unfold flushEntry
  rw [he]

theorem dirtyAtPage_flushEntry (pb : PB) (fd : FD) (p q : Nat) (e : Entry)
    (he : searchIndex pb p = some e) :
    dirtyAtPage (flushEntry pb fd p).1 q =
      if q = p then false else dirtyAtPage pb q := by
  rw [flushEntry_fst pb fd p e he]
  split
  · have h1 : dirtyAtPage (rpAccess (markEntryClean pb p) p) q
        = dirtyAtPage (markEntryClean pb p) q := by
      unfold dirtyAtPage
      rw [searchIndex_rpAccess]
    rw [h1, dirtyAtPage_markEntryClean]
  · rw [dirtyAtPage_markEntryClean]

theorem dirtyAtPage_evictEntry (pb pb' : PB) (p q : Nat)
    (h : evictEntry pb p false = some pb') :
    dirtyAtPage pb' q = if q = p then false else dirtyAtPage pb q := by
  unfold evictEntry at h
  cases he : searchIndex pb p with
  | none => rw [he] at h; exact absurd h (by simp)
  | some e =>
    rw [he] at h
    simp only at h
    split at h
    · exact absurd h (by simp)
    · split at h
      · exact absurd h (by simp)
      · split at h
        · exact absurd h (by simp)
        · have hpb' : pb' = deleteFromIndex
              (if !e.isMpmde then rpRemove pb p else pb) p := by
            simp only [Bool.false_and, if_false] at h
            exact (Option.some.inj h).symm
          subst hpb'
          unfold dirtyAtPage
          rw [searchIndex_deleteFromIndex]
          by_cases hq : p = q
          · subst hq; simp
          · have : ¬ q = p := fun hh => hq hh.symm
            simp only [hq, if_false, this]
            split <;> rfl

theorem dirtyCount_mono (pb pb' : PB) (l : List Nat)
    (h : ∀ q, dirtyAtPage pb' q = true → dirtyAtPage pb q = true) :
    dirtyCount pb' l ≤ dirtyCount pb l := by
  unfold dirtyCount
  exact List.countP_mono_left (fun q _ hq => h q hq)

theorem dirtyCount_cons (pb : PB) (p : Nat) (l : List Nat) :
    dirtyCount pb (p :: l) =
      dirtyCount pb l + (if dirtyAtPage pb p then 1 else 0) := by
  unfold dirtyCount
  rw [List.countP_cons]

theorem dirtyCount_append (pb : PB) (l l' : List Nat) :
    dirtyCount pb (l ++ l') = dirtyCount pb l + dirtyCount pb l' := by
  unfold dirtyCount
  exact List.countP_append _ _ _

theorem measureSkip (pb : PB) (q : Nat) (rest : List Nat) :
    dirtyCount pb rest + rest.length <
      dirtyCount pb (q :: rest) + (q :: rest).length := by
  rw [dirtyCount_cons]
  simp only [List.length_cons]
  omega

theorem measureFlush (pb : PB) (fd : FD) (p : Nat) (rest : List Nat)
    (e : Entry) (hs : searchIndex pb p = some e) (hd : e.isDirty = true) :
    dirtyCount (flushEntry pb fd p).1 (rest ++ [p]) + (rest ++ [p]).length <
      dirtyCount pb (p :: rest) + (p :: rest).length := by
  have hc : dirtyCount (flushEntry pb fd p).1 rest ≤ dirtyCount pb rest := by
    apply dirtyCount_mono
    intro q hq
    rw [dirtyAtPage_flushEntry pb fd p q e hs] at hq
    by_cases h : q = p
    · rw [if_pos h] at hq; exact absurd hq (by simp)
    · rwa [if_neg h] at hq
  have hp2 : dirtyCount (flushEntry pb fd p).1 [p] = 0 := by
    unfold dirtyCount
    rw [List.countP_cons, List.countP_nil]
    rw [dirtyAtPage_flushEntry pb fd p p e hs]
    simp
  have hdp : dirtyAtPage pb p = true := by
    unfold dirtyAtPage
    rw [hs]
    simpa using hd
  rw [dirtyCount_append, hp2, dirtyCount_cons pb p rest, hdp]
  simp only [List.length_append, List.length_cons, List.length_nil,
    if_true, eq_self_iff_true]
  omega

theorem measureEvict (pb pb' : PB) (p : Nat) (rest : List Nat)
    (hev : evictEntry pb p false = some pb') :
    dirtyCount pb' rest + rest.length <
      dirtyCount pb (p :: rest) + (p :: rest).length := by
  rw [dirtyCount_cons]
  have hc : dirtyCount pb' rest ≤ dirtyCount pb rest := by
    apply dirtyCount_mono
    intro q hq
    rw [dirtyAtPage_evictEntry pb pb' p q hev] at hq
    by_cases h : q = p
    · rw [if_pos h] at hq; exact absurd hq (by simp)
    · rwa [if_neg h] at hq
  simp only [List.length_cons]
  omega

/-- The scan of `H5PB__make_space`: walk the LRU from tail to head
(`walk` lists the pages still to be examined, tail-most first; a flushed
entry moves to the LRU head and is therefore re-appended to the walk,
exactly as the C pointer walk re-encounters it).  Stops when
`curr_pages < max_pages` or the head is passed. -/
def makeSpaceLoop (insertingMd : Bool) (pb : PB) (fd : FD)
    (walk : List Nat) : Option (PB × FD) :=
  match walk with
  | [] => some (pb, fd)
  | p :: rest =>
    if currPages pb < pb.maxPages then some (pb, fd)
    else
      match hs : searchIndex pb p with
      | none => none
      | some e =>
        if e.modifiedThisTick then
          makeSpaceLoop insertingMd pb fd rest
        else if insertingMd && !e.isMetadata
            && currRdPages pb ≤ pb.minRdPages then
          makeSpaceLoop insertingMd pb fd rest
        else if !insertingMd && e.isMetadata
            && currMdPages pb ≤ pb.minMdPages then
          makeSpaceLoop insertingMd pb fd rest
        else if hd : e.isDirty then
          makeSpaceLoop insertingMd (flushEntry pb fd p).1 (flushEntry pb fd p).2
            (rest ++ [p])
        else
          match hev : evictEntry pb p false with
          | none => none
          | some pb' => makeSpaceLoop insertingMd pb' fd rest
termination_by dirtyCount pb walk + walk.length
decreasing_by
  all_goals first
    | exact measureFlush pb fd _ _ _ hs hd
    | exact measureEvict pb _ _ _ hev
    | exact measureSkip pb _ _

/-- `H5PB__make_space`: fail immediately when the configuration forbids
the inserted class, otherwise scan the LRU from its tail. -/
def makeSpace (pb : PB) (fd : FD) (insertedType : MemT) :
    Option (PB × FD) :=
  let insertingMd := insertedType ≠ MemT.draw
  if insertingMd && pb.minRdPages == pb.maxPages then none
  else if !insertingMd && pb.minMdPages == pb.maxPages then none
  else makeSpaceLoop insertingMd pb fd pb.lru.reverse

/-- `H5PB__load_page`: make space if the buffer is full, create a page
entry of `page_size` bytes at `addr`, and fill its image from the file
unless `addr ≥ EOF` (then the zeroed image stands and `loaded` stays
false). -/
def loadPage (pb : PB) (fd : FD) (addr : Nat) (type : MemT) :
    Option (PB × FD) :=
  let skipRead := addr ≥ fd.eof
  let step1 : Option (PB × FD) :=
    if currPages pb ≥ pb.maxPages then makeSpace pb fd type
    else some (pb, fd)
  match step1 with
  | none => none
  | some (pb1, fd1) =>
    match createNewPage pb1 addr pb.pageSize type with
    | none => none
    | some (pb2, page) =>
      let pb3 := setEntry pb2 page (fun e =>
        { e with
          image := if skipRead then e.image
                   else fun off => fd1.bytes (addr + off)
          loaded := !skipRead })
      some (pb3, fd1)

/-- Search for the page, loading it on a miss (the hit-or-load prologue
shared by several paths of `H5PB__read_meta` / `H5PB__write_meta` /
`H5PB__read_raw` / `H5PB__write_raw`). -/
def hitOrLoad (pb : PB) (fd : FD) (pageAddr : Nat) (type : MemT) :
    Option (PB × FD) :=
  match searchIndex pb (pageAddr / pb.pageSize) with
  | some _ => some (pb, fd)
  | none => loadPage pb fd pageAddr type

/-- `H5PB__read_meta`.  `prevAddr` models the function-local `static
haddr_t prev_addr` (initially `HADDR_UNDEF`, modelled as `none`); the
returned fourth component is its updated value.  The returned list is
the bytes placed in the caller's buffer. -/
def readMeta (pb : PB) (fd : FD) (addr size : Nat) (prevAddr : Option Nat) :
    Option (PB × FD × List Nat × Option Nat) :=
  let page := addr / pb.pageSize
  let pageAddr := page * pb.pageSize
  if pageAddr ≠ addr then
    -- case 6: unaligned; clip to the end of the page, load on miss
    let offset := addr - pageAddr
    let clipped := if offset + size ≤ pb.pageSize then size
                   else size - ((offset + size) - pb.pageSize)
    match hitOrLoad pb fd pageAddr MemT.meta with
    | none => none
    | some (pb1, fd1) =>
      match searchIndex pb1 page with
      | none => none
      | some e =>
        let bytes := (List.range clipped).map (fun i => e.image (offset + i))
        let pb2 := if !e.isMpmde && e.delayWriteUntil == 0 then
            rpAccess pb1 page else pb1
        some (pb2, fd1, bytes, some addr)
  else if size ≥ pb.pageSize then
    match searchIndex pb page with
    | none =>
      -- case 7: no entry; satisfy the read from the file
      some (pb, fd, readBytes fd.bytes addr size, some addr)
    | some e =>
      if !e.isMpmde then
        -- case 8: regular entry; speculative-then-exact disambiguation
        if prevAddr == some addr then
          match evictEntry pb page true with
          | none => none
          | some pb1 =>
            some (pb1, fd, readBytes fd.bytes addr size, some addr)
        else
          let bytes := (List.range e.size).map e.image
          let pb1 := if !e.isMpmde && e.delayWriteUntil == 0 then
              rpAccess pb page else pb
          some (pb1, fd, bytes, some addr)
      else
        -- case 9: multi-page metadata entry; clip to the entry size
        let clipped := if size > e.size then e.size else size
        let bytes := (List.range clipped).map e.image
        let pb1 := if !e.isMpmde && e.delayWriteUntil == 0 then
            rpAccess pb page else pb
        some (pb1, fd, bytes, some addr)
  else
    -- case 10: aligned, smaller than a page; load on miss and serve
    match hitOrLoad pb fd pageAddr MemT.meta with
    | none => none
    | some (pb1, fd1) =>
      match searchIndex pb1 page with
      | none => none
      | some e =>
        let bytes := (List.range size).map e.image
        let pb2 := if !e.isMpmde && e.delayWriteUntil == 0 then
            rpAccess pb1 page else pb1
        some (pb2, fd1, bytes, some addr)

/-- Set `modified_this_tick` and insert in the tick list when not yet a
member (the tail of both cases of `H5PB__write_meta`). -/
def tlInsertIfNeeded (pb : PB) (page : Nat) : Option PB :=
  match searchIndex pb page with
  | none => none
  | some e =>
    if !e.modifiedThisTick then
      some (tlInsert
        (setEntry pb page (fun e' => { e' with modifiedThisTick := true }))
        page)
    else some pb

/-- `H5PB__write_meta`. -/
def writeMeta (delayOf : Nat → Nat) (pb : PB) (fd : FD)
    (addr size : Nat) (B : List Nat) : Option (PB × FD) :=
  let page := addr / pb.pageSize
  let pageAddr := page * pb.pageSize
  if size > pb.pageSize then
    -- case 7: multi-page metadata entry (VFD SWMR writer only)
    let created : Option PB :=
      match searchIndex pb page with
      | some _ => some pb
      | none =>
        match createNewPage pb addr size MemT.meta with
        | none => none
        | some (pb1, pg) =>
          some (setEntry pb1 pg (fun e => { e with loaded := true }))
    match created with
    | none => none
    | some pb1 =>
      let pb2 := setEntry pb1 page
        (fun e => { e with image := patchImage e.image 0 B })
      let pb3 := markEntryDirty delayOf pb2 page
      match tlInsertIfNeeded pb3 page with
      | none => none
      | some pb4 => some (pb4, fd)
  else
    -- case 8: metadata write of at most a page
    let offset := addr - pageAddr
    match hitOrLoad pb fd pageAddr MemT.meta with
    | none => none
    | some (pb1, fd1) =>
      let pb2 := setEntry pb1 page
        (fun e => { e with image := patchImage e.image offset B })
      let pb3 := markEntryDirty delayOf pb2 page
      if pb.vfdSwmrWriter then
        match tlInsertIfNeeded pb3 page with
        | none => none
        | some pb4 => some (pb4, fd1)
      else some (pb3, fd1)

/-- One step of the overlay scan of `H5PB__read_raw` case 3: if a dirty
page is resident at touched page `i`, copy its relevant bytes onto the
read buffer and update the LRU for the access. -/
def readRawOverlayStep (addr size firstPageAddr lastPageAddr nTouched : Nat)
    (st : PB × (Nat → Nat)) (i : Nat) : PB × (Nat → Nat) :=
  let pb := st.1
  let b := st.2
  let sp := firstPageAddr / pb.pageSize + i
  match searchIndex pb sp with
  | none => st
  | some e =>
    if e.isDirty then
      let b' : Nat → Nat :=
        if i == 0 then
          let off := addr - firstPageAddr
          fun j => if j < pb.pageSize - off then e.image (off + j) else b j
        else if i == nTouched - 1 then
          let off := (nTouched - 2) * pb.pageSize
            + (pb.pageSize - (addr - firstPageAddr))
          fun j => if off ≤ j ∧ j < off + ((addr + size) - lastPageAddr) then
              e.image (j - off)
            else b j
        else
          let off := (i - 1) * pb.pageSize
            + (pb.pageSize - (addr - firstPageAddr))
          fun j => if off ≤ j ∧ j < off + pb.pageSize then e.image (j - off)
            else b j
      (rpAccess pb sp, b')
    else st

/-- `H5PB__read_raw`. -/
def readRaw (pb : PB) (fd : FD) (addr size : Nat) :
    Option (PB × FD × List Nat) :=
  let firstPage := addr / pb.pageSize
  let firstPageAddr := firstPage * pb.pageSize
  let lastPage := (addr + size - 1) / pb.pageSize
  let lastPageAddr := lastPage * pb.pageSize
  let nTouched := lastPage - firstPage + 1
  if size ≥ pb.pageSize then
    -- case 3: bypass read, then overlay resident dirty pages
    let buf0 : Nat → Nat := fun i => fd.bytes (addr + i)
    let r := (List.range nTouched).foldl
      (readRawOverlayStep addr size firstPageAddr lastPageAddr nTouched)
      (pb, buf0)
    some (r.1, fd, (List.range size).map r.2)
  else
    -- case 4: serve from the page buffer, loading pages as necessary
    let offset0 := addr - firstPageAddr
    let length1 := if offset0 + size ≤ pb.pageSize then size
                   else size - (pb.pageSize - offset0)
    match hitOrLoad pb fd firstPageAddr MemT.draw with
    | none => none
    | some (pb1, fd1) =>
      match searchIndex pb1 firstPage with
      | none => none
      | some e1 =>
        let buf1 := (List.range length1).map (fun j => e1.image (offset0 + j))
        let pb2 := rpAccess pb1 firstPage
        if nTouched == 2 then
          let length2 := size - length1
          match hitOrLoad pb2 fd1 lastPageAddr MemT.draw with
          | none => none
          | some (pb3, fd2) =>
            match searchIndex pb3 lastPage with
            | none => none
            | some e2 =>
              let buf2 := (List.range length2).map e2.image
              some (rpAccess pb3 lastPage, fd2, buf1 ++ buf2)
        else some (pb2, fd1, buf1)

/-- One step of the intersection scan of `H5PB__write_raw` case 3: a
resident page fully covered by the write is marked clean and force
evicted; a partially covered first or last page is patched and marked
dirty. -/
def writeRawPatchStep (delayOf : Nat → Nat)
    (addr size firstPageAddr lastPageAddr nTouched : Nat) (B : List Nat)
    (st : Option PB) (i : Nat) : Option PB :=
  match st with
  | none => none
  | some pb =>
    let sp := firstPageAddr / pb.pageSize + i
    match searchIndex pb sp with
    | none => some pb
    | some e =>
      if addr ≤ e.addr ∧ e.addr + e.size ≤ addr + size then
        -- the page is completely overwritten: mark clean and evict
        let pb1 := if e.isDirty then markEntryClean pb sp else pb
        evictEntry pb1 sp true
      else if i == 0 then
        let off := addr - firstPageAddr
        let pb1 := setEntry pb sp (fun e' =>
          { e' with image := fun o =>
              if off ≤ o ∧ o < off + (pb.pageSize - off) then
                B.getD (o - off) 0
              else e'.image o })
        some (markEntryDirty delayOf pb1 sp)
      else if i == nTouched - 1 then
        let off := (nTouched - 2) * pb.pageSize
          + (pb.pageSize - (addr - firstPageAddr))
        let pb1 := setEntry pb sp (fun e' =>
          { e' with image := fun o =>
              if o < (addr + size) - lastPageAddr then B.getD (off + o) 0
              else e'.image o })
        some (markEntryDirty delayOf pb1 sp)
      else
        some pb

/-- `H5PB__write_raw`. -/
def writeRaw (delayOf : Nat → Nat) (pb : PB) (fd : FD)
    (addr size : Nat) (B : List Nat) : Option (PB × FD) :=
  let firstPage := addr / pb.pageSize
  let firstPageAddr := firstPage * pb.pageSize
  let lastPage := (addr + size - 1) / pb.pageSize
  let lastPageAddr := lastPage * pb.pageSize
  let nTouched := lastPage - firstPage + 1
  if size ≥ pb.pageSize then
    -- case 3: bypass write, then update intersecting resident pages
    let fd1 : FD := { fd with bytes := writeBytes fd.bytes addr B }
    match (List.range nTouched).foldl
        (writeRawPatchStep delayOf addr size firstPageAddr lastPageAddr
          nTouched B)
        (some pb) with
    | none => none
    | some pb1 => some (pb1, fd1)
  else
    -- case 4: write into the page buffer, loading pages as necessary
    let offset0 := addr - firstPageAddr
    let length1 := if offset0 + size ≤ pb.pageSize then size
                   else pb.pageSize - offset0
    match hitOrLoad pb fd firstPageAddr MemT.draw with
    | none => none
    | some (pb1, fd1) =>
      let pb2 := setEntry pb1 firstPage (fun e =>
        { e with image := patchImage e.image offset0 (B.take length1) })
      let pb3 := markEntryDirty delayOf pb2 firstPage
      if nTouched == 2 then
        let length2 := size - length1
        match hitOrLoad pb3 fd1 lastPageAddr MemT.draw with
        | none => none
        | some (pb4, fd2) =>
          let pb5 := setEntry pb4 lastPage (fun e =>
            { e with image :=
                patchImage e.image 0 ((B.drop length1).take length2) })
          some (markEntryDirty delayOf pb5 lastPage, fd2)
      else some (pb3, fd1)

/-- `H5PB_read` for an open file with the page buffer present: bypass
when the configuration excludes the access type, otherwise dispatch on
raw data versus metadata.  A bypass does not touch `prev_addr`. -/
def H5PB_read (pb : PB) (fd : FD) (type : MemT) (addr size : Nat)
    (prev : Option Nat) : Option (PB × FD × List Nat × Option Nat) :=
  let bypass :=
    (type == MemT.draw && pb.minMdPages == pb.maxPages)
    || (type != MemT.draw && pb.minRdPages == pb.maxPages)
  if bypass then some (pb, fd, readBytes fd.bytes addr size, prev)
  else if type == MemT.draw then
    match readRaw pb fd addr size with
    | none => none
    | some (pb', fd', bytes) => some (pb', fd', bytes, prev)
  else readMeta pb fd addr size prev

/-- `H5PB_write` for an open file with the page buffer present. -/
def H5PB_write (delayOf : Nat → Nat) (pb : PB) (fd : FD) (type : MemT)
    (addr size : Nat) (B : List Nat) : Option (PB × FD) :=
  let bypass :=
    (type == MemT.draw && pb.minMdPages == pb.maxPages)
    || (type != MemT.draw &&
        (pb.minRdPages == pb.maxPages
          || (size ≥ pb.pageSize && !pb.vfdSwmrWriter)))
  if bypass then some (pb, { fd with bytes := writeBytes fd.bytes addr B })
  else if type == MemT.draw then writeRaw delayOf pb fd addr size B
  else writeMeta delayOf pb fd addr size B

/-- The loop of `H5PB_vfd_swmr__release_delayed_writes`: scan the
delayed write list from its tail (the reversed list), releasing entries
whose `delay_write_until` has passed; stop at the first entry whose
deadline has not. -/
def releaseDWLoop (pb : PB) (fd : FD) (tick : Nat) :
    List Nat → Option (PB × FD)
  | [] => some (pb, fd)
  | p :: rest =>
    match searchIndex pb p with
    | none => none
    | some e =>
      if e.delayWriteUntil < tick then
        let pb1 := setEntry pb p (fun e' => { e' with delayWriteUntil := 0 })
        let pb2 := dwlRemove pb1 p
        if e.isMpmde then
          let r := flushEntry pb2 fd p
          match evictEntry r.1 p true with
          | none => none
          | some pb3 => releaseDWLoop pb3 r.2 tick rest
        else
          releaseDWLoop (rpInsertAppend pb2 p) fd tick rest
      else some (pb, fd)

/-- `H5PB_vfd_swmr__release_delayed_writes` (given the file's current
`tick_num`). -/
def releaseDelayedWrites (pb : PB) (fd : FD) (tick : Nat) :
    Option (PB × FD) :=
  releaseDWLoop pb fd tick pb.dwl.reverse

/-- The loop of `H5PB_vfd_swmr__release_tick_list`: drain the tick list
from its head, flushing and evicting multi-page metadata entries that
are not subject to a delayed write. -/
def releaseTLLoop (pb : PB) (fd : FD) : List Nat → Option (PB × FD)
  | [] => some (pb, fd)
  | p :: rest =>
    match searchIndex pb p with
    | none => none
    | some e =>
      let pb1 := tlRemove pb p
      let pb2 := setEntry pb1 p (fun e' => { e' with modifiedThisTick := false })
      if e.isMpmde && e.delayWriteUntil == 0 then
        let r := flushEntry pb2 fd p
        match evictEntry r.1 p true with
        | none => none
        | some pb3 => releaseTLLoop pb3 r.2 rest
      else releaseTLLoop pb2 fd rest

/-- `H5PB_vfd_swmr__release_tick_list`. -/
def releaseTickList (pb : PB) (fd : FD) : Option (PB × FD) :=
  releaseTLLoop pb fd pb.tl

/-- `H5PB_vfd_swmr__set_tick`: the file's tick number must equal the
page buffer's current tick plus exactly 1; otherwise error, leaving the
tick unchanged. -/
def setTick (pb : PB) (fileTick : Nat) : Option PB :=
  if fileTick ≠ pb.curTick + 1 then none
  else some { pb with curTick := fileTick }

/-! ## Reader-side metadata-file decoder (`H5FDvfd_swmr.c`) -/

/-- The decoded metadata-file header (`H5FD_vfd_swmr_md_header`). -/
structure MDHeader where
  fsPageSize : Nat
  tickNum : Nat
  indexOffset : Nat
  indexLength : Nat
  deriving DecidableEq, Repr

/-- One entry of the decoded metadata-file index
(`H5FD_vfd_swmr_idx_entry_t`). -/
structure IdxEntry where
  hdf5PageOffset : Nat
  mdFilePageOffset : Nat
  length : Nat
  chksum : Nat
  deriving DecidableEq, Repr

/-- The decoded metadata-file index (`H5FD_vfd_swmr_md_index`). -/
structure MDIndex where
  tickNum : Nat
  numEntries : Nat
  entries : List IdxEntry
  deriving DecidableEq, Repr

/-- The reader VFD's locally cached header and index. -/
structure VFDCache where
  mdHeader : MDHeader
  mdIndex : MDIndex
  deriving DecidableEq, Repr

/-- `H5FD__vfd_swmr_load_hdr_and_idx`.  The shared metadata file is
being rewritten concurrently, so each loop iteration may decode
different data: `att k` gives the outcome of the header and of the
index deserialization on iteration `k` (`none` = magic/checksum never
stabilized for that record on that iteration).  `hdrSize` is
`H5FD_MD_HEADER_SIZE` and `mdPagesReserved` the reserved page count;
the retry count runs down to 0 = retries exhausted (error). -/
def loadHdrAndIdx (mdPagesReserved hdrSize : Nat) (isOpen : Bool)
    (cache : VFDCache) (att : Nat → Option MDHeader × Option MDIndex) :
    Nat → Nat → Option VFDCache
  | 0, _ => none
  | r + 1, k =>
    match (att k).1 with
    | none => loadHdrAndIdx mdPagesReserved hdrSize isOpen cache att r (k + 1)
    | some h =>
      if hdrSize + h.indexLength > mdPagesReserved * h.fsPageSize then none
      else if !isOpen && h.tickNum == cache.mdHeader.tickNum then some cache
      else if !isOpen && h.tickNum < cache.mdHeader.tickNum then none
      else
        match (att k).2 with
        | none =>
          loadHdrAndIdx mdPagesReserved hdrSize isOpen cache att r (k + 1)
        | some idx =>
          if h.tickNum == idx.tickNum then
            some { mdHeader := h, mdIndex := idx }
          else if h.tickNum > idx.tickNum + 1 then none
          else
            loadHdrAndIdx mdPagesReserved hdrSize isOpen cache att r (k + 1)

/-- The retry loop of `H5FD_vfd_swmr_read` on the branch that serves the
read from the metadata file (index hit).  `att k` is the byte sequence
the k-th read attempt returns (the concurrent writer may be mid-update,
so attempts may differ); `chksumFn` abstracts `H5_checksum_metadata`.
When the page buffer is not yet configured the computed checksum is set
to the stored one, so the comparison succeeds vacuously. -/
def vfdSwmrReadServed (pbConfigured : Bool) (chksumFn : List Nat → Nat)
    (e : IdxEntry) (att : Nat → List Nat) :
    Nat → Nat → Option (List Nat)
  | 0, _ => none
  | r + 1, k =>
    let bytes := att k
    let computed := if pbConfigured then chksumFn bytes else e.chksum
    if e.chksum == computed then some bytes
    else vfdSwmrReadServed pbConfigured chksumFn e att r (k + 1)

/-! ## System states and reachability -/

/-- The state visible to the page buffer of one open file, together
with the process-wide `prev_addr` static of `H5PB__read_meta` and the
file's tick number. -/
structure Sys where
  pb : PB
  fd : FD
  prevAddr : Option Nat
  fileTick : Nat

/-- All entries resident at the pages a raw access `[addr, addr+size)`
touches are raw-data entries (the `HDassert(!(entry_ptr->is_metadata))`
caller contract of `H5PB__read_raw` / `H5PB__write_raw`). -/
def RawRange (pb : PB) (addr size : Nat) : Prop :=
  ∀ p e, searchIndex pb p = some e →
    addr / pb.pageSize ≤ p → p ≤ (addr + size - 1) / pb.pageSize →
    e.isMetadata = false

/-- One transition of the page buffer system: the modeled mutators of
the public API.  `delayOf` abstracts the SWMR write-delay policy.  The
raw accesses carry the implicit preconditions of `H5PB__read_raw` /
`H5PB__write_raw`: a positive size (the code computes
`addr + size - 1`) and the `HDassert(!(entry_ptr->is_metadata))`
contract `RawRange`. -/
inductive Step (delayOf : Nat → Nat) : Sys → Sys → Prop where
  | readMeta (s : Sys) (addr size : Nat) (pb' : PB) (fd' : FD)
      (bytes : List Nat) (prev' : Option Nat)
      (h : H5PB_read s.pb s.fd MemT.meta addr size s.prevAddr =
        some (pb', fd', bytes, prev')) :
      Step delayOf s { s with pb := pb', fd := fd', prevAddr := prev' }
  | readRaw (s : Sys) (addr size : Nat) (pb' : PB) (fd' : FD)
      (bytes : List Nat) (prev' : Option Nat)
      (hsz : 0 < size)
      (hraw : RawRange s.pb addr size)
      (h : H5PB_read s.pb s.fd MemT.draw addr size s.prevAddr =
        some (pb', fd', bytes, prev')) :
      Step delayOf s { s with pb := pb', fd := fd', prevAddr := prev' }
  | writeMeta (s : Sys) (addr size : Nat) (B : List Nat) (pb' : PB) (fd' : FD)
      (h : H5PB_write delayOf s.pb s.fd MemT.meta addr size B =
        some (pb', fd')) :
      Step delayOf s { s with pb := pb', fd := fd' }
  | writeRaw (s : Sys) (addr size : Nat) (B : List Nat) (pb' : PB) (fd' : FD)
      (hsz : 0 < size)
      (hraw : RawRange s.pb addr size)
      (h : H5PB_write delayOf s.pb s.fd MemT.draw addr size B =
        some (pb', fd')) :
      Step delayOf s { s with pb := pb', fd := fd' }
  | setTick (s : Sys) (ft : Nat) (pb' : PB)
      (h : setTick s.pb ft = some pb') :
      Step delayOf s { s with pb := pb', fileTick := ft }
  | releaseTickList (s : Sys) (pb' : PB) (fd' : FD)
      (h : releaseTickList s.pb s.fd = some (pb', fd')) :
      Step delayOf s { s with pb := pb', fd := fd' }
  | releaseDelayedWrites (s : Sys) (pb' : PB) (fd' : FD)
      (h : releaseDelayedWrites s.pb s.fd s.fileTick = some (pb', fd')) :
      Step delayOf s { s with pb := pb', fd := fd' }

/-- An initial system state: a freshly created page buffer — empty
index and lists (`H5PB_create`). -/
def Init (s : Sys) : Prop :=
  s.pb.index = [] ∧ s.pb.lru = [] ∧ s.pb.dwl = [] ∧ s.pb.tl = []

/-- Reachability from an initial state through the modeled operations. -/
def Reachable (delayOf : Nat → Nat) (s s' : Sys) : Prop :=
  Relation.ReflTransGen (Step delayOf) s s'

/-! ## The `make_space` algorithm as worded by the specification -/

/-- What the specification says happens to one LRU candidate. -/
inductive SpecAction where
  | skipCandidate
  | flushCandidate
  | evictCandidate
  deriving DecidableEq, Repr

/-- Transcribed from the specification's §4.1 bullet list, not from the
code: skip a tick-list candidate; skip a raw candidate when inserting
metadata at the raw floor; skip a metadata candidate when inserting raw
at the metadata floor; else flush if dirty; else evict. -/
def specCandidateAction (insertingMd : Bool) (pb : PB) (e : Entry) :
    SpecAction :=
  if e.modifiedThisTick then .skipCandidate
  else if insertingMd && !e.isMetadata && currRdPages pb ≤ pb.minRdPages then
    .skipCandidate
  else if !insertingMd && e.isMetadata && currMdPages pb ≤ pb.minMdPages then
    .skipCandidate
  else if e.isDirty then .flushCandidate
  else .evictCandidate

theorem specAction_flush_dirty (insertingMd : Bool) (pb : PB) (e : Entry)
    (h : specCandidateAction insertingMd pb e = .flushCandidate) :
    e.isDirty = true := by
  unfold specCandidateAction at h
  split at h
  · exact absurd h (by simp)
  · split at h
    · exact absurd h (by simp)
    · split at h
      · exact absurd h (by simp)
      · split at h
        · assumption
        · exact absurd h (by simp)

/-- The specification's walk: tail-to-head over the LRU; a flushed
candidate stays resident, becomes clean and moves to the LRU head (so
the upward walk meets it once more); an evicted candidate leaves; the
walk stops when `curr_pages < max_pages` or the head is passed. -/
def makeSpaceSpecLoop (insertingMd : Bool) (pb : PB) (fd : FD)
    (walk : List Nat) : Option (PB × FD) :=
  match walk with
  | [] => some (pb, fd)
  | p :: rest =>
    if currPages pb < pb.maxPages then some (pb, fd)
    else
      match hs : searchIndex pb p with
      | none => none
      | some e =>
        match hact : specCandidateAction insertingMd pb e with
        | .skipCandidate => makeSpaceSpecLoop insertingMd pb fd rest
        | .flushCandidate =>
          makeSpaceSpecLoop insertingMd (flushEntry pb fd p).1
            (flushEntry pb fd p).2 (rest ++ [p])
        | .evictCandidate =>
          match hev : evictEntry pb p false with
          | none => none
          | some pb' => makeSpaceSpecLoop insertingMd pb' fd rest
termination_by dirtyCount pb walk + walk.length
decreasing_by
  all_goals first
    | exact measureFlush pb fd _ _ _ hs (specAction_flush_dirty _ _ _ hact)
    | exact measureEvict pb _ _ _ hev
    | exact measureSkip pb _ _

/-- §4.1's `make_space`, as the specification words it: fail
immediately when the minimum of the opposite class equals `max_pages`,
otherwise walk the LRU tail-to-head applying `specCandidateAction`. -/
def makeSpaceFromSpec (pb : PB) (fd : FD) (insertedType : MemT) :
    Option (PB × FD) :=
  let insertingMd := insertedType ≠ MemT.draw
  if insertingMd && pb.minRdPages == pb.maxPages then none
  else if !insertingMd && pb.minMdPages == pb.maxPages then none
  else makeSpaceSpecLoop insertingMd pb fd pb.lru.reverse

/-- The C scan and the specification's walk agree on every state. -/
theorem makeSpaceLoop_eq_specLoop (insertingMd : Bool) (pb : PB) (fd : FD)
    (walk : List Nat) :
    makeSpaceLoop insertingMd pb fd walk =
      makeSpaceSpecLoop insertingMd pb fd walk := by
  induction pb, fd, walk using makeSpaceLoop.induct insertingMd with
  | case1 pb fd =>
    simp [makeSpaceLoop, makeSpaceSpecLoop]
  | case2 pb fd q rest hlt =>
    simp [makeSpaceLoop, makeSpaceSpecLoop, hlt]
  | case3 pb fd q rest hge hs =>
    simp only [makeSpaceLoop, makeSpaceSpecLoop]
    rw [if_neg hge, if_neg hge]
    generalize hg : searchIndex pb q = res
    rw [hg] at hs
    subst hs
    rfl
  | case4 pb fd q rest hge e hs hmod ih =>
    simp only [makeSpaceLoop, makeSpaceSpecLoop]
    rw [if_neg hge, if_neg hge]
    generalize hg : searchIndex pb q = res
    rw [hg] at hs
    subst hs
    simp only [hmod, if_true, eq_self_iff_true]
    have hact : specCandidateAction insertingMd pb e =
        SpecAction.skipCandidate := by
      unfold specCandidateAction
      rw [if_pos hmod]
    generalize hg3 : specCandidateAction insertingMd pb e = act
    rw [hg3] at hact
    subst hact
    exact ih
  | case5 pb fd q rest hge e hs hmod hrd ih =>
    simp only [makeSpaceLoop, makeSpaceSpecLoop]
    rw [if_neg hge, if_neg hge]
    generalize hg : searchIndex pb q = res
    rw [hg] at hs
    subst hs
    simp only [hmod, hrd, if_true, if_false, eq_self_iff_true,
      Bool.false_eq_true]
    have hact : specCandidateAction insertingMd pb e =
        SpecAction.skipCandidate := by
      unfold specCandidateAction
      rw [if_neg hmod, if_pos hrd]
    generalize hg3 : specCandidateAction insertingMd pb e = act
    rw [hg3] at hact
    subst hact
    exact ih
  | case6 pb fd q rest hge e hs hmod hrd hmd ih =>
    simp only [makeSpaceLoop, makeSpaceSpecLoop]
    rw [if_neg hge, if_neg hge]
    generalize hg : searchIndex pb q = res
    rw [hg] at hs
    subst hs
    simp only [hmod, hrd, hmd, if_true, if_false, eq_self_iff_true,
      Bool.false_eq_true]
    have hact : specCandidateAction insertingMd pb e =
        SpecAction.skipCandidate := by
      unfold specCandidateAction
      rw [if_neg hmod, if_neg hrd, if_pos hmd]
    generalize hg3 : specCandidateAction insertingMd pb e = act
    rw [hg3] at hact
    subst hact
    exact ih
  | case7 pb fd q rest hge e hs hmod hrd hmd hdirty ih =>
    simp only [makeSpaceLoop, makeSpaceSpecLoop]
    rw [if_neg hge, if_neg hge]
    generalize hg : searchIndex pb q = res
    rw [hg] at hs
    subst hs
    simp only [hmod, hrd, hmd, hdirty, if_true, if_false, eq_self_iff_true,
      Bool.false_eq_true, dite_eq_ite]
    have hact : specCandidateAction insertingMd pb e =
        SpecAction.flushCandidate := by
      unfold specCandidateAction
      rw [if_neg hmod, if_neg hrd, if_neg hmd, if_pos hdirty]
    generalize hg3 : specCandidateAction insertingMd pb e = act
    rw [hg3] at hact
    subst hact
    exact ih
  | case8 pb fd q rest hge e hs hmod hrd hmd hdirty hev =>
    simp only [makeSpaceLoop, makeSpaceSpecLoop]
    rw [if_neg hge, if_neg hge]
    generalize hg : searchIndex pb q = res
    rw [hg] at hs
    subst hs
    simp only [hmod, hrd, hmd, hdirty, if_true, if_false, eq_self_iff_true,
      Bool.false_eq_true, dite_eq_ite]
    have hact : specCandidateAction insertingMd pb e =
        SpecAction.evictCandidate := by
      unfold specCandidateAction
      rw [if_neg hmod, if_neg hrd, if_neg hmd, if_neg hdirty]
    generalize hg3 : specCandidateAction insertingMd pb e = act
    rw [hg3] at hact
    subst hact
    generalize hg2 : evictEntry pb q false = res2
    rw [hg2] at hev
    subst hev
    rfl
  | case9 pb fd q rest hge e hs hmod hrd hmd hdirty pb' hev ih =>
    simp only [makeSpaceLoop, makeSpaceSpecLoop]
    rw [if_neg hge, if_neg hge]
    generalize hg : searchIndex pb q = res
    rw [hg] at hs
    subst hs
    simp only [hmod, hrd, hmd, hdirty, if_true, if_false, eq_self_iff_true,
      Bool.false_eq_true, dite_eq_ite]
    have hact : specCandidateAction insertingMd pb e =
        SpecAction.evictCandidate := by
      unfold specCandidateAction
      rw [if_neg hmod, if_neg hrd, if_neg hmd, if_neg hdirty]
    generalize hg3 : specCandidateAction insertingMd pb e = act
    rw [hg3] at hact
    subst hact
    generalize hg2 : evictEntry pb q false = res2
    rw [hg2] at hev
    subst hev
    exact ih

/-! ## Byte-level and preservation lemmas -/

theorem range_map_getD (B : List Nat) :
    (List.range B.length).map (fun i => B.getD i 0) = B := by
  apply List.ext_getElem (by simp)
  intro i h1 h2
  simp [List.getD_eq_getElem?_getD, List.getElem?_eq_getElem, h2]

theorem readBytes_writeBytes (m : Nat → Nat) (a : Nat) (B : List Nat) :
    readBytes (writeBytes m a B) a B.length = B := by
  unfold readBytes writeBytes
  have : ∀ i, i < B.length →
      (if a ≤ a + i ∧ a + i < a + B.length then B.getD (a + i - a) 0
       else m (a + i)) = B.getD i 0 := by
    intro i hi
    rw [if_pos ⟨Nat.le_add_right a i, by omega⟩]
    congr 1
    omega
  calc (List.range B.length).map
        (fun i => if a ≤ a + i ∧ a + i < a + B.length then B.getD (a + i - a) 0
                  else m (a + i))
      = (List.range B.length).map (fun i => B.getD i 0) := by
        apply List.map_congr_left
        intro i hi
        exact this i (List.mem_range.mp hi)
    _ = B := range_map_getD B

theorem range_map_patchImage (img : Nat → Nat) (off : Nat) (B : List Nat) :
    (List.range B.length).map (fun i => patchImage img off B (off + i)) = B := by
  unfold patchImage
  calc (List.range B.length).map
        (fun i => if off ≤ off + i ∧ off + i < off + B.length then
            B.getD (off + i - off) 0
          else img (off + i))
      = (List.range B.length).map (fun i => B.getD i 0) := by
        apply List.map_congr_left
        intro i hi
        rw [if_pos ⟨Nat.le_add_right off i, by
          have := List.mem_range.mp hi; omega⟩]
        congr 1
        omega
    _ = B := range_map_getD B

@[simp] theorem pageSize_setEntry (pb : PB) (p : Nat) (f : Entry → Entry) :
    (setEntry pb p f).pageSize = pb.pageSize := rfl

@[simp] theorem pageSize_markEntryClean (pb : PB) (p : Nat) :
    (markEntryClean pb p).pageSize = pb.pageSize := rfl

theorem pageSize_flushEntry (pb : PB) (fd : FD) (p : Nat) :
    (flushEntry pb fd p).1.pageSize = pb.pageSize := by
  unfold flushEntry
  cases searchIndex pb p with
  | none => rfl
  | some e =>
    simp only
    split <;> rfl

theorem pageSize_evictEntry (pb pb' : PB) (p : Nat) (force : Bool)
    (h : evictEntry pb p force = some pb') : pb'.pageSize = pb.pageSize := by
  unfold evictEntry at h
  cases he : searchIndex pb p with
  | none => rw [he] at h; exact absurd h (by simp)
  | some e =>
    rw [he] at h
    simp only at h
    split at h
    · exact absurd h (by simp)
    · split at h
      · exact absurd h (by simp)
      · split at h
        · exact absurd h (by simp)
        · have : pb' = deleteFromIndex
              (if !e.isMpmde then
                rpRemove (if force && e.isDirty then markEntryClean pb p else pb) p
              else if force && e.isDirty then markEntryClean pb p else pb) p := by
            exact (Option.some.inj h).symm
          subst this
          unfold deleteFromIndex rpRemove markEntryClean setEntry
          split <;> split <;> rfl

theorem pageSize_makeSpaceLoop (insertingMd : Bool) (pb : PB) (fd : FD)
    (walk : List Nat) (pb1 : PB) (fd1 : FD)
    (h : makeSpaceLoop insertingMd pb fd walk = some (pb1, fd1)) :
    pb1.pageSize = pb.pageSize := by
  induction pb, fd, walk using makeSpaceLoop.induct insertingMd with
  | case1 pb fd =>
    rw [makeSpaceLoop] at h
    simp at h
    rw [h.1]
  | case2 pb fd q rest hlt =>
    rw [makeSpaceLoop, if_pos hlt] at h
    simp at h
    rw [h.1]
  | case3 pb fd q rest hge hs =>
    rw [makeSpaceLoop, if_neg hge] at h
    generalize hg : searchIndex pb q = res at h
    rw [hg] at hs
    subst hs
    exact absurd h (by simp)
  | case4 pb fd q rest hge e hs hmod ih =>
    rw [makeSpaceLoop, if_neg hge] at h
    generalize hg : searchIndex pb q = res at h
    rw [hg] at hs
    subst hs
    simp only [hmod, if_true, eq_self_iff_true] at h
    exact ih h
  | case5 pb fd q rest hge e hs hmod hrd ih =>
    rw [makeSpaceLoop, if_neg hge] at h
    generalize hg : searchIndex pb q = res at h
    rw [hg] at hs
    subst hs
    simp only [hmod, hrd, if_true, if_false, eq_self_iff_true,
      Bool.false_eq_true] at h
    exact ih h
  | case6 pb fd q rest hge e hs hmod hrd hmd ih =>
    rw [makeSpaceLoop, if_neg hge] at h
    generalize hg : searchIndex pb q = res at h
    rw [hg] at hs
    subst hs
    simp only [hmod, hrd, hmd, if_true, if_false, eq_self_iff_true,
      Bool.false_eq_true] at h
    exact ih h
  | case7 pb fd q rest hge e hs hmod hrd hmd hdirty ih =>
    rw [makeSpaceLoop, if_neg hge] at h
    generalize hg : searchIndex pb q = res at h
    rw [hg] at hs
    subst hs
    simp only [hmod, hrd, hmd, hdirty, if_true, if_false, eq_self_iff_true,
      Bool.false_eq_true, dite_eq_ite] at h
    rw [ih h, pageSize_flushEntry]
  | case8 pb fd q rest hge e hs hmod hrd hmd hdirty hev =>
    rw [makeSpaceLoop, if_neg hge] at h
    generalize hg : searchIndex pb q = res at h
    rw [hg] at hs
    subst hs
    simp only [hmod, hrd, hmd, hdirty, if_true, if_false, eq_self_iff_true,
      Bool.false_eq_true, dite_eq_ite] at h
    generalize hg2 : evictEntry pb q false = res2 at h
    rw [hg2] at hev
    subst hev
    exact absurd h (by simp)
  | case9 pb fd q rest hge e hs hmod hrd hmd hdirty pb' hev ih =>
    rw [makeSpaceLoop, if_neg hge] at h
    generalize hg : searchIndex pb q = res at h
    rw [hg] at hs
    subst hs
    simp only [hmod, hrd, hmd, hdirty, if_true, if_false, eq_self_iff_true,
      Bool.false_eq_true, dite_eq_ite] at h
    generalize hg2 : evictEntry pb q false = res2 at h
    rw [hg2] at hev
    subst hev
    rw [ih h]
    exact pageSize_evictEntry pb pb' q false hg2

theorem pageSize_makeSpace (pb : PB) (fd : FD) (t : MemT) (pb1 : PB) (fd1 : FD)
    (h : makeSpace pb fd t = some (pb1, fd1)) : pb1.pageSize = pb.pageSize := by
  simp only [makeSpace] at h
  split at h
  · exact absurd h (by simp)
  · split at h
    · exact absurd h (by simp)
    · exact pageSize_makeSpaceLoop _ pb fd _ pb1 fd1 h

theorem createNewPage_some (pb : PB) (addr size : Nat) (type : MemT)
    (pb2 : PB) (pg : Nat)
    (h : createNewPage pb addr size type = some (pb2, pg)) :
    pg = addr / pb.pageSize ∧
    (∃ e, searchIndex pb2 pg = some e ∧ e.page = pg ∧ e.addr = addr ∧
      e.image = (fun _ => 0) ∧ e.isDirty = false ∧
      e.modifiedThisTick = false ∧ e.delayWriteUntil = 0) ∧
    pb2.pageSize = pb.pageSize := by
  simp only [createNewPage] at h
  split at h
  · exact absurd h (by simp)
  · simp only [Option.some.injEq, Prod.mk.injEq] at h
    obtain ⟨hpb2, hpg⟩ := h
    subst hpg
    let eNew : Entry :=
      { page := addr / pb.pageSize, addr := addr, size := size,
        image := fun _ => 0, isMetadata := decide (type ≠ MemT.draw),
        isMpmde := decide (type ≠ MemT.draw) && decide (size > pb.pageSize),
        isDirty := false, loaded := false, modifiedThisTick := false,
        delayWriteUntil := 0 }
    refine ⟨rfl, ⟨eNew, ?_, rfl, rfl, rfl, rfl, rfl, rfl⟩, ?_⟩
    · rw [← hpb2]
      split
      · rw [searchIndex_rpInsert, searchIndex_insertInIndex, if_pos rfl]
      · rw [searchIndex_insertInIndex, if_pos rfl]
    · rw [← hpb2]
      split <;> rfl

theorem loadPage_lookup (pb : PB) (fd : FD) (addr : Nat) (type : MemT)
    (pb1 : PB) (fd1 : FD)
    (h : loadPage pb fd addr type = some (pb1, fd1)) :
    (∃ e, searchIndex pb1 (addr / pb.pageSize) = some e ∧
      e.modifiedThisTick = false ∧ e.delayWriteUntil = 0) ∧
    pb1.pageSize = pb.pageSize := by
  simp only [loadPage] at h
  split at h
  · exact absurd h (by simp)
  · rename_i pbA fdA hstep
    split at h
    · exact absurd h (by simp)
    · rename_i pbB pg hcr
      simp only [Option.some.injEq, Prod.mk.injEq] at h
      obtain ⟨hpb1, hfd1⟩ := h
      have hAps : pbA.pageSize = pb.pageSize := by
        split at hstep
        · exact pageSize_makeSpace pb fd type pbA fdA hstep
        · simp only [Option.some.injEq, Prod.mk.injEq] at hstep
          rw [hstep.1]
      obtain ⟨hpg, ⟨e, he, hep, hea, hei, hed, hem, hdw⟩, hBps⟩ :=
        createNewPage_some pbA addr pb.pageSize type pbB pg hcr
      have hpg2 : pg = addr / pb.pageSize := by rw [hpg, hAps]
      subst hpg2
      constructor
      · let eNew : Entry :=
          { page := e.page, addr := e.addr, size := e.size,
            image := if addr ≥ fd.eof then e.image
                     else fun off => fdA.bytes (addr + off),
            isMetadata := e.isMetadata, isMpmde := e.isMpmde,
            isDirty := e.isDirty, loaded := !decide (addr ≥ fd.eof),
            modifiedThisTick := e.modifiedThisTick,
            delayWriteUntil := e.delayWriteUntil }
        have hrw := searchIndex_setEntry pbB (addr / pb.pageSize)
          (addr / pb.pageSize)
          (fun e0 => { e0 with
            image := if addr ≥ fd.eof then e0.image
                     else fun off => fdA.bytes (addr + off),
            loaded := !decide (addr ≥ fd.eof) })
          (fun _ => rfl)
        have hq : searchIndex pb1 (addr / pb.pageSize) = some eNew := by
          rw [← hpb1, hrw, if_pos rfl, he]
          rfl
        exact ⟨eNew, hq, hem, hdw⟩
      · rw [← hpb1, pageSize_setEntry, hBps, hAps]

theorem hitOrLoad_lookup (pb : PB) (fd : FD) (pa : Nat) (type : MemT)
    (pb1 : PB) (fd1 : FD)
    (h : hitOrLoad pb fd pa type = some (pb1, fd1)) :
    (∃ e, searchIndex pb1 (pa / pb.pageSize) = some e) ∧
    pb1.pageSize = pb.pageSize := by
  unfold hitOrLoad at h
  split at h
  · rename_i e he
    simp only [Option.some.injEq, Prod.mk.injEq] at h
    obtain ⟨h1, h2⟩ := h
    subst h1
    exact ⟨⟨e, he⟩, rfl⟩
  · obtain ⟨⟨e, he, _, _⟩, hps⟩ := loadPage_lookup pb fd pa type pb1 fd1 h
    exact ⟨⟨e, he⟩, hps⟩

theorem image_setEntry_flags (pb : PB) (p q : Nat) (f : Entry → Entry)
    (hf : ∀ e, (f e).page = e.page) (hfi : ∀ e, (f e).image = e.image) :
    (searchIndex (setEntry pb p f) q).map Entry.image =
      (searchIndex pb q).map Entry.image := by
  rw [searchIndex_setEntry pb p q f hf]
  split
  · cases searchIndex pb q with
    | none => rfl
    | some e => simp [hfi]
  · rfl

theorem image_markEntryDirty (d : Nat → Nat) (pb : PB) (p q : Nat) :
    (searchIndex (markEntryDirty d pb p) q).map Entry.image =
      (searchIndex pb q).map Entry.image := by
  cases he : searchIndex pb p with
  | none => simp only [markEntryDirty, he]
  | some e =>
    simp only [markEntryDirty, he]
    repeat' split
    all_goals
      try simp only [searchIndex_dwlInsert, searchIndex_rpRemove,
        searchIndex_rpAccess]
    all_goals
      first
        | rfl
        | ((apply image_setEntry_flags) <;> intro e0 <;> rfl)

theorem pageSize_markEntryDirty (d : Nat → Nat) (pb : PB) (p : Nat) :
    (markEntryDirty d pb p).pageSize = pb.pageSize := by
  cases he : searchIndex pb p with
  | none => simp only [markEntryDirty, he]
  | some e =>
    simp only [markEntryDirty, he]
    repeat' split
    all_goals rfl

theorem tlInsertIfNeeded_props (pb : PB) (p : Nat) (pb4 : PB)
    (h : tlInsertIfNeeded pb p = some pb4) :
    (∀ q, (searchIndex pb4 q).map Entry.image =
      (searchIndex pb q).map Entry.image) ∧
    pb4.pageSize = pb.pageSize := by
  unfold tlInsertIfNeeded at h
  split at h
  · exact absurd h (by simp)
  · split at h
    · simp only [Option.some.injEq] at h
      subst h
      constructor
      · intro q
        show (searchIndex (tlInsert _ p) q).map Entry.image = _
        rw [searchIndex_tlInsert]
        (apply image_setEntry_flags) <;> intro e0 <;> rfl
      · rfl
    · simp only [Option.some.injEq] at h
      subst h
      exact ⟨fun q => rfl, rfl⟩

/-- The page buffer's configuration fields (page size, capacity,
per-class minimums, writer flag, current tick): no read/write path of
`H5PB2.c` modifies any of them. -/
def cfg (pb : PB) : Nat × Nat × Nat × Nat × Bool × Nat :=
  (pb.pageSize, pb.maxPages, pb.minMdPages, pb.minRdPages,
   pb.vfdSwmrWriter, pb.curTick)

theorem cfg_flushEntry (pb : PB) (fd : FD) (p : Nat) :
    cfg (flushEntry pb fd p).1 = cfg pb := by
  unfold flushEntry
  cases searchIndex pb p with
  | none => rfl
  | some e =>
    simp only
    split <;> rfl

theorem cfg_evictEntry (pb pb' : PB) (p : Nat) (force : Bool)
    (h : evictEntry pb p force = some pb') : cfg pb' = cfg pb := by
  unfold evictEntry at h
  cases he : searchIndex pb p with
  | none => rw [he] at h; exact absurd h (by simp)
  | some e =>
    rw [he] at h
    simp only at h
    split at h
    · exact absurd h (by simp)
    · split at h
      · exact absurd h (by simp)
      · split at h
        · exact absurd h (by simp)
        · have : pb' = deleteFromIndex
              (if !e.isMpmde then
                rpRemove (if force && e.isDirty then markEntryClean pb p else pb) p
              else if force && e.isDirty then markEntryClean pb p else pb) p := by
            exact (Option.some.inj h).symm
          subst this
          unfold deleteFromIndex rpRemove markEntryClean setEntry
          split <;> split <;> rfl

theorem cfg_makeSpaceLoop (insertingMd : Bool) (pb : PB) (fd : FD)
    (walk : List Nat) (pb1 : PB) (fd1 : FD)
    (h : makeSpaceLoop insertingMd pb fd walk = some (pb1, fd1)) :
    cfg pb1 = cfg pb := by
  induction pb, fd, walk using makeSpaceLoop.induct insertingMd with
  | case1 pb fd =>
    rw [makeSpaceLoop] at h
    simp at h
    rw [h.1]
  | case2 pb fd q rest hlt =>
    rw [makeSpaceLoop, if_pos hlt] at h
    simp at h
    rw [h.1]
  | case3 pb fd q rest hge hs =>
    rw [makeSpaceLoop, if_neg hge] at h
    generalize hg : searchIndex pb q = res at h
    rw [hg] at hs
    subst hs
    exact absurd h (by simp)
  | case4 pb fd q rest hge e hs hmod ih =>
    rw [makeSpaceLoop, if_neg hge] at h
    generalize hg : searchIndex pb q = res at h
    rw [hg] at hs
    subst hs
    simp only [hmod, if_true, eq_self_iff_true] at h
    exact ih h
  | case5 pb fd q rest hge e hs hmod hrd ih =>
    rw [makeSpaceLoop, if_neg hge] at h
    generalize hg : searchIndex pb q = res at h
    rw [hg] at hs
    subst hs
    simp only [hmod, hrd, if_true, if_false, eq_self_iff_true,
      Bool.false_eq_true] at h
    exact ih h
  | case6 pb fd q rest hge e hs hmod hrd hmd ih =>
    rw [makeSpaceLoop, if_neg hge] at h
    generalize hg : searchIndex pb q = res at h
    rw [hg] at hs
    subst hs
    simp only [hmod, hrd, hmd, if_true, if_false, eq_self_iff_true,
      Bool.false_eq_true] at h
    exact ih h
  | case7 pb fd q rest hge e hs hmod hrd hmd hdirty ih =>
    rw [makeSpaceLoop, if_neg hge] at h
    generalize hg : searchIndex pb q = res at h
    rw [hg] at hs
    subst hs
    simp only [hmod, hrd, hmd, hdirty, if_true, if_false, eq_self_iff_true,
      Bool.false_eq_true, dite_eq_ite] at h
    rw [ih h, cfg_flushEntry]
  | case8 pb fd q rest hge e hs hmod hrd hmd hdirty hev =>
    rw [makeSpaceLoop, if_neg hge] at h
    generalize hg : searchIndex pb q = res at h
    rw [hg] at hs
    subst hs
    simp only [hmod, hrd, hmd, hdirty, if_true, if_false, eq_self_iff_true,
      Bool.false_eq_true, dite_eq_ite] at h
    generalize hg2 : evictEntry pb q false = res2 at h
    rw [hg2] at hev
    subst hev
    exact absurd h (by simp)
  | case9 pb fd q rest hge e hs hmod hrd hmd hdirty pb' hev ih =>
    rw [makeSpaceLoop, if_neg hge] at h
    generalize hg : searchIndex pb q = res at h
    rw [hg] at hs
    subst hs
    simp only [hmod, hrd, hmd, hdirty, if_true, if_false, eq_self_iff_true,
      Bool.false_eq_true, dite_eq_ite] at h
    generalize hg2 : evictEntry pb q false = res2 at h
    rw [hg2] at hev
    subst hev
    rw [ih h]
    exact cfg_evictEntry pb pb' q false hg2

theorem cfg_makeSpace (pb : PB) (fd : FD) (t : MemT) (pb1 : PB) (fd1 : FD)
    (h : makeSpace pb fd t = some (pb1, fd1)) : cfg pb1 = cfg pb := by
  simp only [makeSpace] at h
  split at h
  · exact absurd h (by simp)
  · split at h
    · exact absurd h (by simp)
    · exact cfg_makeSpaceLoop _ pb fd _ pb1 fd1 h

theorem cfg_createNewPage (pb : PB) (addr size : Nat) (type : MemT)
    (pb2 : PB) (pg : Nat)
    (h : createNewPage pb addr size type = some (pb2, pg)) :
    cfg pb2 = cfg pb := by
  simp only [createNewPage] at h
  split at h
  · exact absurd h (by simp)
  · simp only [Option.some.injEq, Prod.mk.injEq] at h
    rw [← h.1]
    split <;> rfl

theorem cfg_loadPage (pb : PB) (fd : FD) (addr : Nat) (type : MemT)
    (pb1 : PB) (fd1 : FD)
    (h : loadPage pb fd addr type = some (pb1, fd1)) : cfg pb1 = cfg pb := by
  simp only [loadPage] at h
  split at h
  · exact absurd h (by simp)
  · rename_i pbA fdA hstep
    split at h
    · exact absurd h (by simp)
    · rename_i pbB pg hcr
      simp only [Option.some.injEq, Prod.mk.injEq] at h
      have hA : cfg pbA = cfg pb := by
        split at hstep
        · exact cfg_makeSpace pb fd type pbA fdA hstep
        · simp only [Option.some.injEq, Prod.mk.injEq] at hstep
          rw [hstep.1]
      rw [← h.1]
      show cfg (setEntry pbB pg _) = cfg pb
      rw [show cfg (setEntry pbB pg _) = cfg pbB from rfl,
        cfg_createNewPage pbA addr pb.pageSize type pbB pg hcr, hA]

theorem cfg_hitOrLoad (pb : PB) (fd : FD) (pa : Nat) (type : MemT)
    (pb1 : PB) (fd1 : FD)
    (h : hitOrLoad pb fd pa type = some (pb1, fd1)) : cfg pb1 = cfg pb := by
  unfold hitOrLoad at h
  split at h
  · simp only [Option.some.injEq, Prod.mk.injEq] at h
    rw [h.1]
  · exact cfg_loadPage pb fd pa type pb1 fd1 h

theorem cfg_markEntryDirty (d : Nat → Nat) (pb : PB) (p : Nat) :
    cfg (markEntryDirty d pb p) = cfg pb := by
  cases he : searchIndex pb p with
  | none => simp only [markEntryDirty, he]
  | some e =>
    simp only [markEntryDirty, he]
    repeat' split
    all_goals rfl

theorem cfg_tlInsertIfNeeded (pb : PB) (p : Nat) (pb4 : PB)
    (h : tlInsertIfNeeded pb p = some pb4) : cfg pb4 = cfg pb := by
  unfold tlInsertIfNeeded at h
  split at h
  · exact absurd h (by simp)
  · split at h
    · simp only [Option.some.injEq] at h
      subst h
      rfl
    · simp only [Option.some.injEq] at h
      subst h
      rfl

theorem range_map_patchImage_zero (img : Nat → Nat) (B : List Nat) :
    (List.range B.length).map (fun i => patchImage img 0 B i) = B := by
  have h := range_map_patchImage img 0 B
  calc (List.range B.length).map (fun i => patchImage img 0 B i)
      = (List.range B.length).map (fun i => patchImage img 0 B (0 + i)) := by
        apply List.map_congr_left
        intro i _
        rw [Nat.zero_add]
    _ = B := h

theorem readMeta_small_hit (pb : PB) (fd : FD) (addr : Nat) (B : List Nat)
    (eF : Entry) (img0 : Nat → Nat) (prev : Option Nat)
    (hps : 0 < pb.pageSize)
    (hsz : B.length < pb.pageSize)
    (hoff : addr % pb.pageSize + B.length ≤ pb.pageSize)
    (heF : searchIndex pb (addr / pb.pageSize) = some eF)
    (himg : eF.image =
      patchImage img0 (addr - addr / pb.pageSize * pb.pageSize) B) :
    ∃ pb'', readMeta pb fd addr B.length prev =
      some (pb'', fd, B, some addr) := by
  have hpg : addr / pb.pageSize * pb.pageSize / pb.pageSize =
      addr / pb.pageSize := Nat.mul_div_cancel _ hps
  have hHOL : hitOrLoad pb fd (addr / pb.pageSize * pb.pageSize) MemT.meta
      = some (pb, fd) := by
    unfold hitOrLoad
    rw [hpg, heF]
  have hdm := Nat.div_add_mod addr pb.pageSize
  have hmc : pb.pageSize * (addr / pb.pageSize) =
      addr / pb.pageSize * pb.pageSize := Nat.mul_comm _ _
  have hoffeq : addr - addr / pb.pageSize * pb.pageSize =
      addr % pb.pageSize := by omega
  by_cases hal : addr / pb.pageSize * pb.pageSize = addr
  · -- aligned: case 10 of `H5PB__read_meta`
    refine ⟨if !eF.isMpmde && eF.delayWriteUntil == 0 then
        rpAccess pb (addr / pb.pageSize) else pb, ?_⟩
    simp only [readMeta]
    rw [if_neg (fun hc => hc hal),
      if_neg (by omega : ¬ B.length ≥ pb.pageSize), hHOL]
    simp only [heF, himg, hal, Nat.sub_self, range_map_patchImage_zero]
  · -- unaligned: case 6, clipped to the page end (no clipping here)
    have hclip : addr - addr / pb.pageSize * pb.pageSize + B.length ≤
        pb.pageSize := by rw [hoffeq]; exact hoff
    refine ⟨if !eF.isMpmde && eF.delayWriteUntil == 0 then
        rpAccess pb (addr / pb.pageSize) else pb, ?_⟩
    simp only [readMeta]
    rw [if_pos hal, if_pos hclip, hHOL]
    simp only [heF, himg, range_map_patchImage]

theorem C1_read_back (pb0 pbF : PB) (fd1 : FD) (addr : Nat) (B : List Nat)
    (img0 : Nat → Nat) (prev : Option Nat)
    (hps : 0 < pb0.pageSize)
    (hsz : B.length < pb0.pageSize)
    (hoff : addr % pb0.pageSize + B.length ≤ pb0.pageSize)
    (hmin : ¬ (pb0.minRdPages == pb0.maxPages) = true)
    (hcfg : cfg pbF = cfg pb0)
    (himg : (searchIndex pbF (addr / pb0.pageSize)).map Entry.image =
      some (patchImage img0 (addr - addr / pb0.pageSize * pb0.pageSize) B)) :
    ∃ pb'' prev', H5PB_read pbF fd1 MemT.meta addr B.length prev =
      some (pb'', fd1, B, prev') := by
  have h1 : pbF.pageSize = pb0.pageSize := congrArg (fun t => t.1) hcfg
  have h2 : pbF.maxPages = pb0.maxPages := congrArg (fun t => t.2.1) hcfg
  have h4 : pbF.minRdPages = pb0.minRdPages :=
    congrArg (fun t => t.2.2.2.1) hcfg
  obtain ⟨eF, heF, himgF⟩ := Option.map_eq_some'.mp himg
  obtain ⟨pb'', hrm⟩ := readMeta_small_hit pbF fd1 addr B eF img0 prev
    (by rw [h1]; exact hps) (by rw [h1]; exact hsz) (by rw [h1]; exact hoff)
    (by rw [h1]; exact heF) (by rw [h1]; exact himgF)
  refine ⟨pb'', some addr, ?_⟩
  have hnm : (MemT.meta == MemT.draw) = false := rfl
  have hne : (MemT.meta != MemT.draw) = true := rfl
  simp only [H5PB_read, hnm, hne, Bool.false_and, Bool.true_and, Bool.false_or]
  rw [h4, h2, if_neg hmin, if_neg (by decide : ¬ ((false : Bool) = true))]
  exact hrm

/-! ## Concrete states used by witnesses and counterexamples -/

/-- A small page buffer configuration: page size 4, capacity 4 pages,
no per-class minimums, not a VFD SWMR writer. -/
def pbEx : PB :=
  { pageSize := 4, maxPages := 4, minMdPages := 0, minRdPages := 0
    vfdSwmrWriter := false, curTick := 5
    index := [], lru := [], dwl := [], tl := [] }

/-- A file whose byte at address `a` is `a % 200`, with EOF at 100. -/
def fdEx : FD := { bytes := fun a => a % 200, eof := 100 }

/-- A multi-page metadata entry (2 pages of 4 bytes) at address 0. -/
def mpmdeEx : Entry :=
  { page := 0, addr := 0, size := 8, image := fun o => o + 10
    isMetadata := true, isMpmde := true, isDirty := true, loaded := true
    modifiedThisTick := false, delayWriteUntil := 0 }

/-- A page buffer that is NOT in VFD-SWMR-writer mode but holds
`mpmdeEx` in its index (the configuration of the two `MPMDE, not
writer` rows of the specification's read decision table). -/
def pbMpmde : PB :=
  { pbEx with index := [mpmdeEx] }

/-- The specification's example configuration: 4 KiB pages, capacity 4,
no per-class minimums, not a VFD SWMR writer. -/
def pbC1 : PB :=
  { pageSize := 4096, maxPages := 4, minMdPages := 0, minRdPages := 0
    vfdSwmrWriter := false, curTick := 1
    index := [], lru := [], dwl := [], tl := [] }

/-- A file whose byte at address `a` is `a % 251`, EOF at 16 KiB. -/
def fdC1 : FD := { bytes := fun a => a % 251, eof := 16384 }

/-- 64 distinguishable bytes for the specification's
`write(meta, 0x2000, 64, B)` example. -/
def B64 : List Nat := (List.range 64).map (fun i => i % 9 + 1)

/-- 8 bytes for a two-page metadata write on the 4-byte-page `pbEx`. -/
def B8 : List Nat := [100, 101, 102, 103, 104, 105, 106, 107]

/-- `pbEx` with `min_rd_pages = max_pages`, the configuration whose
metadata accesses bypass the page buffer entirely. -/
def pbByp : PB := { pbEx with minRdPages := 4 }

/-! ## C5 -/

/-- C5: the `make_space` algorithm.  Refinement: `H5PB__make_space`
(transcribed from the C scan, `makeSpace`) computes exactly the
function described by the specification's §4.1 bullet list
(`makeSpaceFromSpec`, built from `specCandidateAction`): walk the LRU
tail to head; skip tick-list candidates, skip raw candidates when
inserting metadata at `curr_rd_pages ≤ min_rd_pages`, skip metadata
candidates when inserting raw at `curr_md_pages ≤ min_md_pages`; flush
a dirty candidate (it stays resident, becomes clean and moves to the
LRU head — see `flushEntry`) and continue from its predecessor; evict
a clean candidate; stop when `curr_pages < max_pages` or the head is
passed.  In addition, the immediate failure: inserting metadata with
`min_rd_pages = max_pages`, or raw with `min_md_pages = max_pages`, is
an error before any scan. -/
theorem C5_make_space_algorithm :
    (∀ pb fd t, makeSpace pb fd t = makeSpaceFromSpec pb fd t) ∧
    (∀ pb fd t, (t ≠ MemT.draw → pb.minRdPages = pb.maxPages →
        makeSpace pb fd t = none) ∧
      (t = MemT.draw → pb.minMdPages = pb.maxPages →
        makeSpace pb fd t = none)) := by
  constructor
  · intro pb fd t
    unfold makeSpace makeSpaceFromSpec
    simp only [makeSpaceLoop_eq_specLoop]
  · intro pb fd t
    constructor
    · intro ht hmin
      unfold makeSpace
      simp [ht, hmin]
    · intro ht hmin
      subst ht
      unfold makeSpace
      simp [hmin]

/-- C5 witness: on the metadata-only configuration
(`min_md_pages = max_pages`) a raw-data insertion fails immediately,
and on a raw-only configuration a metadata insertion fails; the
refinement equality is also instantiated at such a state. -/
theorem C5_make_space_algorithm_witness :
    (makeSpace { pbEx with minMdPages := 4 } { bytes := fun _ => 0, eof := 0 }
        MemT.draw = none) ∧
    (makeSpace { pbEx with minRdPages := 4 } { bytes := fun _ => 0, eof := 0 }
        MemT.meta = none) ∧
    (makeSpace pbEx { bytes := fun _ => 0, eof := 0 } MemT.meta =
      makeSpaceFromSpec pbEx { bytes := fun _ => 0, eof := 0 } MemT.meta) := by
  refine ⟨?_, ?_, ?_⟩
  · apply (C5_make_space_algorithm.2 { pbEx with minMdPages := 4 }
      { bytes := fun _ => 0, eof := 0 } MemT.draw).2 rfl
    simp [pbEx]
  · apply (C5_make_space_algorithm.2 { pbEx with minRdPages := 4 }
      { bytes := fun _ => 0, eof := 0 } MemT.meta).1 (by decide)
    simp [pbEx]
  · exact C5_make_space_algorithm.1 pbEx { bytes := fun _ => 0, eof := 0 }
      MemT.meta

/-! ## C8 -/

/-- C8: Tick monotonicity.  `H5PB_vfd_swmr__set_tick` errors unless the
file's tick number equals the page buffer's current tick plus exactly
1 (a skip, a repeat, or a decrease is an error, and on error no state
is produced, so the page buffer's tick is not updated); on success the
only change is `cur_tick := fileTick`, so the tick advances by exactly
1 per tick. -/
theorem C8_set_tick_exact_increment (pb : PB) (ft : Nat) :
    (setTick pb ft = none ↔ ft ≠ pb.curTick + 1) ∧
    (∀ pb', setTick pb ft = some pb' →
      ft = pb.curTick + 1 ∧ pb' = { pb with curTick := ft }) := by
  constructor
  · unfold setTick
    split <;> simp_all
  · intro pb' h
    unfold setTick at h
    split at h <;> simp_all

/-- C8 witness: with `cur_tick = 5`, advancing to 7 is an error and
advancing to 6 succeeds with exactly the tick updated. -/
theorem C8_set_tick_exact_increment_witness :
    setTick pbEx 7 = none ∧ 6 = pbEx.curTick + 1 :=
  ⟨(C8_set_tick_exact_increment pbEx 7).1.mpr (by decide),
   ((C8_set_tick_exact_increment pbEx 6).2 { pbEx with curTick := 6 } rfl).1⟩

/-! ## C2 -/

/-- C2: the claim (and the comment block / decision table of
`H5PB__read_meta` itself) says a page-aligned metadata read that finds a
multi-page metadata entry flags an error when the page buffer is not in
VFD-SWMR-writer mode.  The code only asserts `pb_ptr->vfd_swmr_writer`
(cases 9 and 10), which is a no-op in release builds, and then serves
the read from the MPMDE image: both the `size ≥ page` read (8 bytes)
and the `size < page` read (2 bytes) on `pbMpmde` (not a writer)
SUCCEED, returning the entry's bytes instead of failing. -/
theorem C2_mpmde_read_not_writer_serves_data :
    pbMpmde.vfdSwmrWriter = false ∧
    H5PB_read pbMpmde fdEx MemT.meta 0 8 none =
      some (pbMpmde, fdEx, [10, 11, 12, 13, 14, 15, 16, 17], some 0) ∧
    H5PB_read pbMpmde fdEx MemT.meta 0 2 none =
      some (pbMpmde, fdEx, [10, 11], some 0) := by
  refine ⟨rfl, ?_, ?_⟩ <;> rfl

/-! ## C10 -/

/-- C10: before the page buffer is configured, the reader VFD performs
no checksum verification on reads served from the metadata file — the
computed checksum is set equal to the stored one, so the first attempt
always succeeds and its bytes (torn or not) are returned without retry
or error.  Once `pb_configured` is true the checksum of the read bytes
is computed by `chksumFn` and compared against `index[i].chksum`: a
matching first attempt is returned, and if no attempt within the retry
bound ever matches, the read fails. -/
theorem C10_pb_configured_checksum_gate (chksumFn : List Nat → Nat)
    (e : IdxEntry) (att : Nat → List Nat) (r k : Nat) :
    (vfdSwmrReadServed false chksumFn e att (r + 1) k = some (att k)) ∧
    (chksumFn (att k) = e.chksum →
      vfdSwmrReadServed true chksumFn e att (r + 1) k = some (att k)) ∧
    ((∀ j, chksumFn (att j) ≠ e.chksum) →
      ∀ r' k', vfdSwmrReadServed true chksumFn e att r' k' = none) := by
  refine ⟨?_, ?_, ?_⟩
  · unfold vfdSwmrReadServed
    simp
  · intro h
    unfold vfdSwmrReadServed
    simp [h]
  · intro h r'
    induction r' with
    | zero => intro k'; rfl
    | succ n ih =>
      intro k'
      unfold vfdSwmrReadServed
      have hne : (e.chksum == chksumFn (att k')) = false := by
        simp
        exact fun hh => (h k') hh.symm
      simp only [if_pos, if_neg, hne, Bool.false_eq_true, if_false]
      exact ih (k' + 1)

/-- C10 witness: with checksum = list sum, stored checksum 6 and a
first attempt `[9, 9]` (sum 18 ≠ 6): unconfigured returns the torn
bytes `[9, 9]` at once; configured with a matching attempt returns it;
configured with never-matching attempts exhausts the retries. -/
theorem C10_pb_configured_checksum_gate_witness :
    (vfdSwmrReadServed false (fun l => l.sum)
      ⟨0, 0, 2, 6⟩ (fun _ => [9, 9]) 3 0 = some [9, 9]) ∧
    (vfdSwmrReadServed true (fun l => l.sum)
      ⟨0, 0, 2, 6⟩ (fun _ => [1, 5]) 3 0 = some [1, 5]) ∧
    (vfdSwmrReadServed true (fun l => l.sum)
      ⟨0, 0, 2, 6⟩ (fun _ => [9, 9]) 3 0 = none) := by
  refine ⟨?_, ?_, ?_⟩
  · exact (C10_pb_configured_checksum_gate (fun l => l.sum)
      ⟨0, 0, 2, 6⟩ (fun _ => [9, 9]) 2 0).1
  · exact (C10_pb_configured_checksum_gate (fun l => l.sum)
      ⟨0, 0, 2, 6⟩ (fun _ => [1, 5]) 2 0).2.1 (by decide)
  · exact (C10_pb_configured_checksum_gate (fun l => l.sum)
      ⟨0, 0, 2, 6⟩ (fun _ => [9, 9]) 2 0).2.2 (fun _ => by decide) 3 0

/-! ## C6 -/

/-- An iteration of the reader's load loop that neither succeeds nor
errors (header and index both decode and fit, the tick has progressed,
but header and index ticks disagree by at most 1): the loop must retry. -/
def RetryableAttempt (mdp hsz : Nat) (o : Bool) (cache : VFDCache)
    (a : Option MDHeader × Option MDIndex) : Prop :=
  ∃ h idx, a.1 = some h ∧ a.2 = some idx ∧
    ¬ (hsz + h.indexLength > mdp * h.fsPageSize) ∧
    (o = true ∨ cache.mdHeader.tickNum < h.tickNum) ∧
    h.tickNum ≠ idx.tickNum ∧ ¬ (h.tickNum > idx.tickNum + 1)

/-- C6: the reader's header/index coherence protocol
(`H5FD__vfd_swmr_load_hdr_and_idx`).  With the header of attempt `k`
decoding to `h` (and fitting in the reserved pages):
(a) on a reload (not first open), `h.tick_num` equal to the cached
    header's tick returns the cached copies unchanged — whatever the
    index deserialization would have produced, it is not consulted;
(b) a freshly-loaded header tick strictly below the cached one is an
    error;
(c) when the index of attempt `k` decodes to `idx` and the ticks match,
    the cached copies are replaced by `⟨h, idx⟩`;
(d) when `h.tick_num > idx.tick_num + 1`, error;
(e) otherwise (tick skew of exactly 1) the whole load is retried, and
    if every attempt within the (bounded, back-off) retry budget stays
    in that torn state, the load fails with retry exhaustion. -/
theorem C6_reader_header_index_coherence
    (mdp hsz : Nat) (o : Bool) (cache : VFDCache)
    (att : Nat → Option MDHeader × Option MDIndex) (r k : Nat)
    (h : MDHeader) (hh : (att k).1 = some h)
    (hfits : ¬ (hsz + h.indexLength > mdp * h.fsPageSize)) :
    ((o = false) → h.tickNum = cache.mdHeader.tickNum →
      loadHdrAndIdx mdp hsz o cache att (r + 1) k = some cache) ∧
    ((o = false) → h.tickNum < cache.mdHeader.tickNum →
      loadHdrAndIdx mdp hsz o cache att (r + 1) k = none) ∧
    (∀ idx, (o = true ∨ cache.mdHeader.tickNum < h.tickNum) →
      (att k).2 = some idx → h.tickNum = idx.tickNum →
      loadHdrAndIdx mdp hsz o cache att (r + 1) k =
        some { mdHeader := h, mdIndex := idx }) ∧
    (∀ idx, (o = true ∨ cache.mdHeader.tickNum < h.tickNum) →
      (att k).2 = some idx → h.tickNum > idx.tickNum + 1 →
      loadHdrAndIdx mdp hsz o cache att (r + 1) k = none) ∧
    ((∀ j, RetryableAttempt mdp hsz o cache (att j)) →
      ∀ r' k', loadHdrAndIdx mdp hsz o cache att r' k' = none) := by
  refine ⟨?_, ?_, ?_, ?_, ?_⟩
  · intro ho heq
    subst ho
    unfold loadHdrAndIdx
    rw [hh]
    simp [hfits, heq]
  · intro ho hlt
    subst ho
    unfold loadHdrAndIdx
    rw [hh]
    have hne : h.tickNum ≠ cache.mdHeader.tickNum := Nat.ne_of_lt hlt
    simp [hfits, hne, hlt]
  · intro idx hcase hidx heq
    unfold loadHdrAndIdx
    rw [hh]
    rcases hcase with ho | hgt
    · subst ho
      simp [hfits, hidx, heq]
    · have h7 : idx.tickNum ≠ cache.mdHeader.tickNum := by omega
      have h8 : ¬ idx.tickNum < cache.mdHeader.tickNum := by omega
      simp [hfits, hidx, heq, h7, h8]
  · intro idx hcase hidx hskew
    unfold loadHdrAndIdx
    rw [hh]
    have hne2 : h.tickNum ≠ idx.tickNum := by omega
    rcases hcase with ho | hgt
    · subst ho
      simp [hfits, hidx, hne2, hskew]
    · have hne : h.tickNum ≠ cache.mdHeader.tickNum := by omega
      have hnlt : ¬ h.tickNum < cache.mdHeader.tickNum := by omega
      simp [hfits, hne, hnlt, hidx, hne2, hskew]
  · intro hall r'
    induction r' with
    | zero => intro k'; rfl
    | succ n ih =>
      intro k'
      obtain ⟨hj, ij, h1, h2, h3, h4, h5, h6⟩ := hall k'
      unfold loadHdrAndIdx
      rw [h1]
      rcases h4 with ho | hgt
      · subst ho
        simp [h2, h3, h5, h6, ih]
      · have hne : hj.tickNum ≠ cache.mdHeader.tickNum := by omega
        have hnlt : ¬ hj.tickNum < cache.mdHeader.tickNum := by omega
        simp [h2, h3, hne, hnlt, h5, h6, ih]

/-- C6 witness: cached tick 5.  A reload seeing header tick 5 returns
the cache; header tick 4 errors; header 6 with index 6 installs the new
pair; header 8 with index 6 errors; a permanently torn header 6 / index
5 state exhausts the retries. -/
theorem C6_reader_header_index_coherence_witness :
    (loadHdrAndIdx 11 36 false ⟨⟨4, 5, 36, 8⟩, ⟨5, 0, []⟩⟩
      (fun _ => (some ⟨4, 5, 36, 8⟩, none)) 3 0 =
        some ⟨⟨4, 5, 36, 8⟩, ⟨5, 0, []⟩⟩) ∧
    (loadHdrAndIdx 11 36 false ⟨⟨4, 5, 36, 8⟩, ⟨5, 0, []⟩⟩
      (fun _ => (some ⟨4, 4, 36, 8⟩, none)) 3 0 = none) ∧
    (loadHdrAndIdx 11 36 false ⟨⟨4, 5, 36, 8⟩, ⟨5, 0, []⟩⟩
      (fun _ => (some ⟨4, 6, 36, 8⟩, some ⟨6, 0, []⟩)) 3 0 =
        some ⟨⟨4, 6, 36, 8⟩, ⟨6, 0, []⟩⟩) ∧
    (loadHdrAndIdx 11 36 false ⟨⟨4, 5, 36, 8⟩, ⟨5, 0, []⟩⟩
      (fun _ => (some ⟨4, 8, 36, 8⟩, some ⟨6, 0, []⟩)) 3 0 = none) ∧
    (loadHdrAndIdx 11 36 false ⟨⟨4, 5, 36, 8⟩, ⟨5, 0, []⟩⟩
      (fun _ => (some ⟨4, 6, 36, 8⟩, some ⟨5, 0, []⟩)) 7 0 = none) := by
  refine ⟨?_, ?_, ?_, ?_, ?_⟩
  · exact (C6_reader_header_index_coherence 11 36 false _ _ 2 0 _ rfl
      (by decide)).1 rfl rfl
  · exact (C6_reader_header_index_coherence 11 36 false _
      (fun _ => (some ⟨4, 4, 36, 8⟩, none)) 2 0 _ rfl (by decide)).2.1 rfl
      (by decide)
  · exact (C6_reader_header_index_coherence 11 36 false _
      (fun _ => (some ⟨4, 6, 36, 8⟩, some ⟨6, 0, []⟩)) 2 0 _ rfl
      (by decide)).2.2.1 _ (Or.inr (by decide)) rfl rfl
  · exact (C6_reader_header_index_coherence 11 36 false _
      (fun _ => (some ⟨4, 8, 36, 8⟩, some ⟨6, 0, []⟩)) 2 0 _ rfl
      (by decide)).2.2.2.1 _ (Or.inr (by decide)) rfl (by decide)
  · exact (C6_reader_header_index_coherence 11 36 false _
      (fun _ => (some ⟨4, 6, 36, 8⟩, some ⟨5, 0, []⟩)) 2 0 _ rfl
      (by decide)).2.2.2.2
      (fun _ => ⟨⟨4, 6, 36, 8⟩, ⟨5, 0, []⟩, rfl, rfl, by decide,
        Or.inr (by decide), by decide, by decide⟩) 7 0

/-! ## C3 -/

/-- Forced eviction of a resident entry always succeeds, and removes
exactly that entry from the index. -/
theorem evictEntry_force (pb : PB) (p : Nat) (e : Entry)
    (he : searchIndex pb p = some e) :
    ∃ pb', evictEntry pb p true = some pb' ∧
      ∀ q, searchIndex pb' q = if p = q then none else searchIndex pb q := by
  unfold evictEntry
  rw [he]
  simp only [Bool.not_true, Bool.false_and, Bool.false_eq_true, if_false,
    Bool.true_and]
  refine ⟨_, rfl, fun q => ?_⟩
  rw [searchIndex_deleteFromIndex]
  by_cases hpq : p = q
  · simp [hpq]
  · simp only [hpq, if_false]
    split
    · rw [searchIndex_rpRemove]
      split
      · rw [searchIndex_markEntryClean]
        simp [hpq]
      · rfl
    · split
      · rw [searchIndex_markEntryClean]
        simp [hpq]
      · rfl

/-- A regular (single-page) clean or dirty metadata entry at address 0
(page 0), used by witnesses. -/
def regEntryEx : Entry :=
  { page := 0, addr := 0, size := 4, image := fun o => 50 + o
    isMetadata := true, isMpmde := false, isDirty := false, loaded := true
    modifiedThisTick := false, delayWriteUntil := 0 }

/-- A page buffer holding the regular page `regEntryEx` on its LRU. -/
def pbReg : PB := { pbEx with index := [regEntryEx], lru := [0] }

/-- C3: speculative-then-exact metadata read.  For a page-aligned
metadata read of `size ≥ page_size` finding a regular (non-MPMDE)
entry at the target page: if the immediately preceding metadata read
(the `prev_addr` static) was for the same address, the entry is
force-evicted and the whole read is satisfied by bypassing to the file
driver; if the preceding read was for a different address, the read is
clipped to the entry (one page) and served from the resident entry,
which stays resident. -/
theorem C3_speculative_then_exact (pb : PB) (fd : FD) (addr size : Nat)
    (e : Entry) (prev : Option Nat)
    (hal : addr % pb.pageSize = 0)
    (hsz : pb.pageSize ≤ size)
    (he : searchIndex pb (addr / pb.pageSize) = some e)
    (hmp : e.isMpmde = false) :
    (prev = some addr →
      ∃ pb', readMeta pb fd addr size prev =
          some (pb', fd, readBytes fd.bytes addr size, some addr) ∧
        searchIndex pb' (addr / pb.pageSize) = none) ∧
    (prev ≠ some addr →
      ∃ pb', readMeta pb fd addr size prev =
          some (pb', fd, (List.range e.size).map e.image, some addr) ∧
        searchIndex pb' (addr / pb.pageSize) = some e) := by
  have hpa : addr / pb.pageSize * pb.pageSize = addr :=
    Nat.div_mul_cancel (Nat.dvd_of_mod_eq_zero hal)
  constructor
  · intro hprev
    subst hprev
    obtain ⟨pbE, hev, hlook⟩ := evictEntry_force pb (addr / pb.pageSize) e he
    refine ⟨pbE, ?_, by rw [hlook]; simp⟩
    unfold readMeta
    simp only [hpa, ne_eq, not_true_eq_false, if_false, ite_not]
    rw [if_pos hsz, he]
    simp [hmp, hev]
  · intro hprev
    have hbe : (prev == some addr) = false := by
      simpa using hprev
    refine ⟨if !e.isMpmde && e.delayWriteUntil == 0 then
        rpAccess pb (addr / pb.pageSize) else pb, ?_, ?_⟩
    · unfold readMeta
      simp only [hpa, ne_eq, not_true_eq_false, if_false, ite_not]
      rw [if_pos hsz, he]
      simp [hmp, hbe]
    · split
      · rw [searchIndex_rpAccess]
        exact he
      · exact he

/-- C3 witness: on `pbReg` (clean regular page at 0), a 2-page aligned
read at 0 with `prev_addr = 0` bypasses after force-evicting, while
with `prev_addr = 4` it is served from the entry, clipped to one
page. -/
theorem C3_speculative_then_exact_witness :
    (∃ pb', readMeta pbReg fdEx 0 8 (some 0) =
        some (pb', fdEx, readBytes fdEx.bytes 0 8, some 0) ∧
      searchIndex pb' 0 = none) ∧
    (∃ pb', readMeta pbReg fdEx 0 8 (some 4) =
        some (pb', fdEx, (List.range regEntryEx.size).map regEntryEx.image,
          some 0) ∧
      searchIndex pb' 0 = some regEntryEx) :=
  ⟨(C3_speculative_then_exact pbReg fdEx 0 8 regEntryEx (some 0)
      (by decide) (by decide) rfl rfl).1 rfl,
   (C3_speculative_then_exact pbReg fdEx 0 8 regEntryEx (some 4)
      (by decide) (by decide) rfl rfl).2 (by decide)⟩

/-! ## C9 -/

/-- C9: the "last metadata read address" is the single function-local
static `prev_addr` of `H5PB__read_meta`, shared by every open file in
the process (modelled by threading one `prevAddr` value through every
`readMeta` call of every file).  Part 1: every metadata read that
reaches the page buffer path and succeeds overwrites it with its own
address, whatever file, alignment or size.  Parts 2-4: consequently an
intervening metadata read against a DIFFERENT file (different `PB`,
same static) flips the behavior of a page-aligned `size ≥ page` read
on this file: with `prev_addr = 0` (set by this file's own previous
read of 0) the read at 0 force-evicts and bypasses, returning the file
driver's bytes with the page no longer resident; after an intervening
read on another (empty) page buffer at address 4 the static becomes 4,
and the same read at 0 is served from the resident entry, clipped to
one page, with the page still resident. -/
theorem C9_prev_addr_shared_static :
    (∀ pb fd addr size prev pb' fd' bytes prev',
      readMeta pb fd addr size prev = some (pb', fd', bytes, prev') →
      prev' = some addr) ∧
    (H5PB_read pbEx fdEx MemT.meta 4 4 (some 0) =
      some (pbEx, fdEx, [4, 5, 6, 7], some 4)) ∧
    (H5PB_read pbReg fdEx MemT.meta 0 8 (some 0) =
      some ({ pbReg with index := [], lru := [] }, fdEx,
        [0, 1, 2, 3, 4, 5, 6, 7], some 0)) ∧
    (H5PB_read pbReg fdEx MemT.meta 0 8 (some 4) =
      some (pbReg, fdEx, [50, 51, 52, 53], some 0)) ∧
    ([0, 1, 2, 3, 4, 5, 6, 7] ≠ [50, 51, 52, 53]) := by
  refine ⟨?_, rfl, rfl, rfl, by decide⟩
  intro pb fd addr size prev pb' fd' bytes prev' h
  unfold readMeta at h
  by_cases hal : addr / pb.pageSize * pb.pageSize = addr
  · rw [if_neg (fun hc => hc hal)] at h
    iterate 8 (all_goals try split at h)
    all_goals simp_all
  · rw [if_pos hal] at h
    iterate 8 (all_goals try split at h)
    all_goals simp_all

/-- C9 witness: the overwrite fact at a concrete input — the read of
address 4 on `pbEx` sets the static to `some 4`. -/
theorem C9_prev_addr_shared_static_witness :
    (some (4 : Nat)) = some 4 ∧ readBytes fdEx.bytes 4 4 = [4, 5, 6, 7] :=
  ⟨C9_prev_addr_shared_static.1 pbEx fdEx 4 4 none pbEx fdEx
      (readBytes fdEx.bytes 4 4) (some 4) rfl,
   by decide⟩

/-! ## C1 -/

/-- C1 counterexample: the unrestricted write-then-read round trip of
the claim fails.  On `pbEx` (4-byte pages, not a VFD SWMR writer), a
small metadata write of `[9, 9]` at address 0 makes page 0 resident
with image `[9, 9, 2, 3]`; a following metadata write of the 8 bytes
`B8` at address 0 has `size ≥ page_size` with `vfd_swmr_writer` false,
so `H5PB_write` bypasses the page buffer and writes `B8` straight to
the file, leaving the now-stale page resident.  The immediate
`read(meta, 0, 8)` (no intervening write) then finds the regular entry
at page 0 and, since `prev_addr ≠ addr`, serves the clipped stale bytes
`[9, 9, 2, 3]`, not `B8`. -/
theorem C1_small_meta_roundtrip_counterexample :
    ∃ pbA fdA pbB fdB,
      H5PB_write (fun _ => 0) pbEx fdEx MemT.meta 0 2 [9, 9] =
        some (pbA, fdA) ∧
      H5PB_write (fun _ => 0) pbA fdA MemT.meta 0 8 B8 = some (pbB, fdB) ∧
      (H5PB_read pbB fdB MemT.meta 0 8 none).map (fun t => t.2.2.1) =
        some [9, 9, 2, 3] ∧
      ([9, 9, 2, 3] : List Nat) ≠ B8 := by
  refine ⟨_, _, _, _, rfl, rfl, ?_, by decide⟩
  rfl

/-- C1 (amended): the round trip does hold for metadata writes smaller
than a page that do not cross a page boundary.  First conjunct: for
every such write accepted by `H5PB_write`, the immediate `H5PB_read` of
the same type, address and size succeeds, leaves the file untouched and
returns exactly the bytes written.  Second conjunct (the spec's
example instance): after `write(meta, 0x2000, 64, B64)` on an empty
4 KiB-page buffer, `read(meta, 0x2000, 64)` returns `B64`, exactly one
page is resident, and the entry at page 2 sits at address 0x2000 and is
dirty. -/
theorem C1_small_meta_roundtrip_amended :
    (∀ (delayOf : Nat → Nat) (pb : PB) (fd : FD) (addr : Nat) (B : List Nat)
       (pb' : PB) (fd' : FD) (prev : Option Nat),
       0 < pb.pageSize →
       B.length < pb.pageSize →
       addr % pb.pageSize + B.length ≤ pb.pageSize →
       H5PB_write delayOf pb fd MemT.meta addr B.length B = some (pb', fd') →
       ∃ pb'' prev', H5PB_read pb' fd' MemT.meta addr B.length prev =
         some (pb'', fd', B, prev')) ∧
    (∃ pb' fd' pb'',
       H5PB_write (fun _ => 0) pbC1 fdC1 MemT.meta 8192 64 B64 =
         some (pb', fd') ∧
       H5PB_read pb' fd' MemT.meta 8192 64 none =
         some (pb'', fd', B64, some 8192) ∧
       currPages pb' = 1 ∧
       (searchIndex pb' 2).map (fun e => (e.addr, e.isDirty)) =
         some (8192, true)) := by
  constructor
  · intro delayOf pb fd addr B pb' fd' prev hps hsz hoff hw
    have hnm : (MemT.meta == MemT.draw) = false := rfl
    have hne : (MemT.meta != MemT.draw) = true := rfl
    have hge : decide (B.length ≥ pb.pageSize) = false :=
      decide_eq_false (by omega)
    simp only [H5PB_write, hnm, hne, Bool.false_and, Bool.true_and,
      Bool.false_or, hge, Bool.or_false, Bool.false_eq_true, if_false] at hw
    by_cases hmin : (pb.minRdPages == pb.maxPages) = true
    · rw [if_pos hmin] at hw
      simp only [Option.some.injEq, Prod.mk.injEq] at hw
      obtain ⟨hpb', hfd'⟩ := hw
      subst hpb'
      subst hfd'
      refine ⟨pb, prev, ?_⟩
      simp only [H5PB_read, hnm, hne, Bool.false_and, Bool.true_and,
        Bool.false_or]
      rw [if_pos hmin]
      rw [readBytes_writeBytes]
    · rw [if_neg hmin] at hw
      -- `H5PB__write_meta`, case 8 (the write is at most a page)
      have hgt : ¬ (B.length > pb.pageSize) := by omega
      simp only [writeMeta] at hw
      rw [if_neg hgt] at hw
      split at hw
      · exact absurd hw (by simp)
      · rename_i pb1 fd1 hHOL
        obtain ⟨⟨e1, he1⟩, _⟩ := hitOrLoad_lookup pb fd
          (addr / pb.pageSize * pb.pageSize) MemT.meta pb1 fd1 hHOL
        rw [Nat.mul_div_cancel _ hps] at he1
        have hcfg1 : cfg pb1 = cfg pb := cfg_hitOrLoad pb fd
          (addr / pb.pageSize * pb.pageSize) MemT.meta pb1 fd1 hHOL
        have he2 : searchIndex (setEntry pb1 (addr / pb.pageSize) (fun e => { e with image := patchImage e.image (addr - addr / pb.pageSize * pb.pageSize) B })) (addr / pb.pageSize) = some { e1 with image := patchImage e1.image (addr - addr / pb.pageSize * pb.pageSize) B } := by
          rw [searchIndex_setEntry pb1 (addr / pb.pageSize) (addr / pb.pageSize) (fun e => { e with image := patchImage e.image (addr - addr / pb.pageSize * pb.pageSize) B }) (fun _ => rfl), if_pos rfl, he1]
          rfl
        have himg3 : (searchIndex (markEntryDirty delayOf (setEntry pb1 (addr / pb.pageSize) (fun e => { e with image := patchImage e.image (addr - addr / pb.pageSize * pb.pageSize) B })) (addr / pb.pageSize)) (addr / pb.pageSize)).map Entry.image = some (patchImage e1.image (addr - addr / pb.pageSize * pb.pageSize) B) := by
          rw [image_markEntryDirty, he2]
          rfl
        have hcfg3 : cfg (markEntryDirty delayOf (setEntry pb1 (addr / pb.pageSize) (fun e => { e with image := patchImage e.image (addr - addr / pb.pageSize * pb.pageSize) B })) (addr / pb.pageSize)) = cfg pb := by
          rw [cfg_markEntryDirty]
          exact hcfg1
        split at hw
        · -- VFD SWMR writer: the entry also enters the tick list
          split at hw
          · exact absurd hw (by simp)
          · rename_i pb4 hTL
            simp only [Option.some.injEq, Prod.mk.injEq] at hw
            obtain ⟨hpb', hfd'⟩ := hw
            subst hpb'
            subst hfd'
            obtain ⟨himgP, _⟩ := tlInsertIfNeeded_props _ _ _ hTL
            exact C1_read_back pb pb4 fd1 addr B e1.image prev hps hsz hoff
              hmin (by rw [cfg_tlInsertIfNeeded _ _ _ hTL]; exact hcfg3)
              (by rw [himgP]; exact himg3)
        · -- not a writer: done after `H5PB__mark_entry_dirty`
          simp only [Option.some.injEq, Prod.mk.injEq] at hw
          obtain ⟨hpb', hfd'⟩ := hw
          subst hpb'
          subst hfd'
          exact C1_read_back pb _ fd1 addr B e1.image prev hps hsz hoff
            hmin hcfg3 himg3
  · exact ⟨_, _, _, rfl, rfl, rfl, rfl⟩

/-! ## C7 -/

/-- Whether the entry resident at a page is a multi-page metadata
entry (`false` when no entry is resident). -/
def isMpmdePage (pb : PB) (p : Nat) : Bool :=
  ((searchIndex pb p).map Entry.isMpmde).getD false

/-- The file bytes after flushing the entry resident at page `p` of
`pb` (the identity when no entry is resident). -/
def flushBytes (pb : PB) (b : Nat → Nat) (p : Nat) : Nat → Nat :=
  match searchIndex pb p with
  | none => b
  | some e => overlayImage b e.addr e.image e.size

theorem searchIndex_flushEntry (pb : PB) (fd : FD) (p q : Nat) :
    searchIndex (flushEntry pb fd p).1 q =
      if p = q then
        (searchIndex pb q).map (fun e => { e with isDirty := false })
      else searchIndex pb q := by
  unfold flushEntry
  cases he : searchIndex pb p with
  | none =>
    by_cases hpq : p = q
    · subst hpq
      rw [if_pos rfl, he]
      rfl
    · rw [if_neg hpq]
  | some e =>
    simp only
    split
    · rw [searchIndex_rpAccess, searchIndex_markEntryClean]
    · rw [searchIndex_markEntryClean]

theorem searchIndex_evictEntry (pb pb' : PB) (p q : Nat) (force : Bool)
    (h : evictEntry pb p force = some pb') :
    searchIndex pb' q = if p = q then none else searchIndex pb q := by
  unfold evictEntry at h
  cases he : searchIndex pb p with
  | none => rw [he] at h; exact absurd h (by simp)
  | some e =>
    rw [he] at h
    simp only at h
    split at h
    · exact absurd h (by simp)
    · split at h
      · exact absurd h (by simp)
      · split at h
        · exact absurd h (by simp)
        · have hpb' : pb' = deleteFromIndex
              (if !e.isMpmde then
                rpRemove (if force && e.isDirty then markEntryClean pb p else pb) p
              else if force && e.isDirty then markEntryClean pb p else pb) p := by
            exact (Option.some.inj h).symm
          subst hpb'
          rw [searchIndex_deleteFromIndex]
          by_cases hpq : p = q
          · simp [hpq]
          · rw [if_neg hpq, if_neg hpq]
            repeat' split
            all_goals
              simp only [searchIndex_rpRemove, searchIndex_markEntryClean]
            all_goals simp [hpq]

@[simp] theorem dwl_setEntry (pb : PB) (p : Nat) (f : Entry → Entry) :
    (setEntry pb p f).dwl = pb.dwl := rfl

@[simp] theorem dwl_dwlRemove (pb : PB) (p : Nat) :
    (dwlRemove pb p).dwl = pb.dwl.filter (fun q => q ≠ p) := rfl

@[simp] theorem dwl_rpInsertAppend (pb : PB) (p : Nat) :
    (rpInsertAppend pb p).dwl = pb.dwl := rfl

theorem dwl_flushEntry (pb : PB) (fd : FD) (p : Nat) :
    (flushEntry pb fd p).1.dwl = pb.dwl := by
  unfold flushEntry
  cases searchIndex pb p with
  | none => rfl
  | some e =>
    simp only
    split <;> rfl

theorem dwl_evictEntry (pb pb' : PB) (p : Nat) (force : Bool)
    (h : evictEntry pb p force = some pb') : pb'.dwl = pb.dwl := by
  unfold evictEntry at h
  cases he : searchIndex pb p with
  | none => rw [he] at h; exact absurd h (by simp)
  | some e =>
    rw [he] at h
    simp only at h
    split at h
    · exact absurd h (by simp)
    · split at h
      · exact absurd h (by simp)
      · split at h
        · exact absurd h (by simp)
        · have hpb' : pb' = deleteFromIndex
              (if !e.isMpmde then
                rpRemove (if force && e.isDirty then markEntryClean pb p else pb) p
              else if force && e.isDirty then markEntryClean pb p else pb) p := by
            exact (Option.some.inj h).symm
          subst hpb'
          unfold deleteFromIndex rpRemove markEntryClean setEntry
          split <;> split <;> rfl

@[simp] theorem lru_setEntry (pb : PB) (p : Nat) (f : Entry → Entry) :
    (setEntry pb p f).lru = pb.lru := rfl

@[simp] theorem lru_dwlRemove (pb : PB) (p : Nat) :
    (dwlRemove pb p).lru = pb.lru := rfl

@[simp] theorem lru_rpInsertAppend (pb : PB) (p : Nat) :
    (rpInsertAppend pb p).lru = pb.lru ++ [p] := rfl

theorem mem_lru_rpAccess (pb : PB) (p q : Nat) (hq : q ∈ pb.lru) :
    q ∈ (rpAccess pb p).lru := by
  unfold rpAccess
  by_cases hqp : q = p
  · subst hqp
    exact List.mem_cons_self _ _
  · exact List.mem_cons_of_mem _ (List.mem_filter.mpr ⟨hq, by simp [hqp]⟩)

theorem mem_lru_rpRemove (pb : PB) (p q : Nat) (hqp : q ≠ p)
    (hq : q ∈ pb.lru) : q ∈ (rpRemove pb p).lru :=
  List.mem_filter.mpr ⟨hq, by simp [hqp]⟩

theorem mem_lru_flushEntry (pb : PB) (fd : FD) (p q : Nat)
    (hq : q ∈ pb.lru) : q ∈ (flushEntry pb fd p).1.lru := by
  unfold flushEntry
  cases searchIndex pb p with
  | none => exact hq
  | some e =>
    simp only
    split
    · exact mem_lru_rpAccess _ p q hq
    · exact hq

theorem mem_lru_evictEntry (pb pb' : PB) (p q : Nat) (force : Bool)
    (h : evictEntry pb p force = some pb') (hqp : q ≠ p)
    (hq : q ∈ pb.lru) : q ∈ pb'.lru := by
  unfold evictEntry at h
  cases he : searchIndex pb p with
  | none => rw [he] at h; exact absurd h (by simp)
  | some e =>
    rw [he] at h
    simp only at h
    split at h
    · exact absurd h (by simp)
    · split at h
      · exact absurd h (by simp)
      · split at h
        · exact absurd h (by simp)
        · have hpb' : pb' = deleteFromIndex
              (if !e.isMpmde then
                rpRemove (if force && e.isDirty then markEntryClean pb p else pb) p
              else if force && e.isDirty then markEntryClean pb p else pb) p := by
            exact (Option.some.inj h).symm
          subst hpb'
          show q ∈ (if !e.isMpmde then
              rpRemove (if force && e.isDirty then markEntryClean pb p else pb) p
            else if force && e.isDirty then markEntryClean pb p else pb).lru
          split
          · apply mem_lru_rpRemove _ p q hqp
            split
            · exact hq
            · exact hq
          · split
            · exact hq
            · exact hq

theorem flushEntry_snd (pb : PB) (fd : FD) (p : Nat) (e : Entry)
    (he : searchIndex pb p = some e) :
    (flushEntry pb fd p).2 =
      { fd with bytes := overlayImage fd.bytes e.addr e.image e.size } := by
  unfold flushEntry
  rw [he]

theorem releaseDWLoop_spec (pb0 : PB) (tick : Nat) :
    ∀ (walk : List Nat) (pb : PB) (fd : FD) (pbR : PB) (fdR : FD),
    walk.Nodup →
    List.Pairwise (fun a b => delayOfPage pb0 a ≤ delayOfPage pb0 b) walk →
    (∀ p ∈ walk, searchIndex pb p = searchIndex pb0 p) →
    pb.dwl = walk.reverse →
    releaseDWLoop pb fd tick walk = some (pbR, fdR) →
    (pbR.dwl = (walk.filter (fun p => tick ≤ delayOfPage pb0 p)).reverse) ∧
    (∀ p ∈ walk, delayOfPage pb0 p < tick →
      (isMpmdePage pb0 p = true → searchIndex pbR p = none) ∧
      (isMpmdePage pb0 p = false →
        ∃ e', searchIndex pbR p = some e' ∧ e'.delayWriteUntil = 0 ∧
          p ∈ pbR.lru)) ∧
    (∀ p ∈ walk, tick ≤ delayOfPage pb0 p →
      searchIndex pbR p = searchIndex pb p) ∧
    (fdR.bytes = (walk.filter (fun p =>
        decide (delayOfPage pb0 p < tick) && isMpmdePage pb0 p)).foldl
        (flushBytes pb0) fd.bytes ∧ fdR.eof = fd.eof) ∧
    (∀ q, q ∉ walk → searchIndex pbR q = searchIndex pb q) ∧
    (∀ q, q ∉ walk → q ∈ pb.lru → q ∈ pbR.lru) := by
  intro walk
  induction walk with
  | nil =>
    intro pb fd pbR fdR hnd hsort hlook hdwl h
    simp only [releaseDWLoop, Option.some.injEq, Prod.mk.injEq] at h
    obtain ⟨h1, h2⟩ := h
    subst h1
    subst h2
    refine ⟨by simpa using hdwl, ?_, ?_, ⟨rfl, rfl⟩, fun q _ => rfl,
      fun q _ hq => hq⟩
    · intro p hp
      exact absurd hp (List.not_mem_nil p)
    · intro p hp
      exact absurd hp (List.not_mem_nil p)
  | cons p0 rest ih =>
    intro pb fd pbR fdR hnd hsort hlook hdwl h
    have hp0nr : p0 ∉ rest := (List.nodup_cons.mp hnd).1
    have hnd' : rest.Nodup := (List.nodup_cons.mp hnd).2
    have hrel : ∀ b ∈ rest, delayOfPage pb0 p0 ≤ delayOfPage pb0 b :=
      (List.pairwise_cons.mp hsort).1
    have hsort' : List.Pairwise
        (fun a b => delayOfPage pb0 a ≤ delayOfPage pb0 b) rest :=
      (List.pairwise_cons.mp hsort).2
    simp only [releaseDWLoop] at h
    split at h
    · exact absurd h (by simp)
    · rename_i e hs
      have he0 : searchIndex pb0 p0 = some e :=
        (hlook p0 (List.mem_cons_self p0 rest)) ▸ hs
      have hde0 : delayOfPage pb0 p0 = e.delayWriteUntil := by
        unfold delayOfPage
        rw [he0]
        rfl
      have hmp0 : isMpmdePage pb0 p0 = e.isMpmde := by
        unfold isMpmdePage
        rw [he0]
        rfl
      split at h
      · rename_i hlt
        -- the entry at `p0` is released
        split at h
        · rename_i hmp
          -- released multi-page metadata entry: flush, then force-evict
          split at h
          · exact absurd h (by simp)
          · rename_i pb3 hev
            have hdwlMid : (dwlRemove (setEntry pb p0
                (fun e' => { e' with delayWriteUntil := 0 })) p0).dwl =
                rest.reverse := by
              rw [dwl_dwlRemove, dwl_setEntry, hdwl, List.reverse_cons,
                List.filter_append]
              have h1 : ([p0].filter (fun q => q ≠ p0)) = [] := by simp
              have h2 : (rest.reverse.filter (fun q => q ≠ p0)) =
                  rest.reverse := by
                apply List.filter_eq_self.mpr
                intro a ha
                simp only [ne_eq, decide_eq_true_eq]
                intro hh
                exact hp0nr (hh ▸ List.mem_reverse.mp ha)
              rw [h1, h2, List.append_nil]
            have hmidlk : searchIndex (dwlRemove (setEntry pb p0
                (fun e' => { e' with delayWriteUntil := 0 })) p0) p0 =
                some { e with delayWriteUntil := 0 } := by
              rw [searchIndex_dwlRemove, searchIndex_setEntry pb p0 p0
                (fun e' => { e' with delayWriteUntil := 0 }) (fun _ => rfl),
                if_pos rfl, hs]
              rfl
            have hfr : ∀ q, q ≠ p0 → searchIndex pb3 q = searchIndex pb q := by
              intro q hqp
              rw [searchIndex_evictEntry _ pb3 p0 q true hev,
                if_neg (fun hh => hqp hh.symm), searchIndex_flushEntry,
                if_neg (fun hh => hqp hh.symm), searchIndex_dwlRemove,
                searchIndex_setEntry pb p0 q
                  (fun e' => { e' with delayWriteUntil := 0 }) (fun _ => rfl),
                if_neg (fun hh => hqp hh.symm)]
            have hlk3 : searchIndex pb3 p0 = none := by
              rw [searchIndex_evictEntry _ pb3 p0 p0 true hev, if_pos rfl]
            have hdwl3 : pb3.dwl = rest.reverse := by
              rw [dwl_evictEntry _ pb3 p0 true hev, dwl_flushEntry, hdwlMid]
            have hlook' : ∀ p ∈ rest, searchIndex pb3 p = searchIndex pb0 p := by
              intro p hp
              rw [hfr p (fun hh => hp0nr (hh ▸ hp))]
              exact hlook p (List.mem_cons_of_mem p0 hp)
            obtain ⟨D1, D2, D3, D4, D5, D6⟩ :=
              ih pb3 _ pbR fdR hnd' hsort' hlook' hdwl3 h
            have hcondp0 : (decide (tick ≤ delayOfPage pb0 p0)) = false := by
              simp only [decide_eq_false_iff_not]
              omega
            have hbcondp0 : (decide (delayOfPage pb0 p0 < tick) &&
                isMpmdePage pb0 p0) = true := by
              rw [hmp0, hmp]
              simp only [Bool.and_true, decide_eq_true_eq]
              omega
            refine ⟨?_, ?_, ?_, ⟨?_, ?_⟩, ?_, ?_⟩
            · rw [D1, List.filter_cons, hcondp0]
              simp
            · intro p hp hplt
              rcases List.mem_cons.mp hp with hpeq | hp'
              · subst hpeq
                constructor
                · intro _
                  rw [D5 p hp0nr, hlk3]
                · intro hcontra
                  rw [hmp0, hmp] at hcontra
                  exact absurd hcontra (by simp)
              · exact D2 p hp' hplt
            · intro p hp hpge
              rcases List.mem_cons.mp hp with hpeq | hp'
              · subst hpeq
                omega
              · rw [D3 p hp' hpge]
                exact hfr p (fun hh => hp0nr (hh ▸ hp'))
            · rw [D4.1, List.filter_cons, hbcondp0]
              simp only [if_true, List.foldl_cons]
              have hsnd := flushEntry_snd (dwlRemove (setEntry pb p0
                (fun e' => { e' with delayWriteUntil := 0 })) p0) fd p0
                { e with delayWriteUntil := 0 } hmidlk
              rw [hsnd]
              have hfb : flushBytes pb0 fd.bytes p0 =
                  overlayImage fd.bytes e.addr e.image e.size := by
                unfold flushBytes
                rw [he0]
              rw [hfb]
            · have hsnd := flushEntry_snd (dwlRemove (setEntry pb p0
                (fun e' => { e' with delayWriteUntil := 0 })) p0) fd p0
                { e with delayWriteUntil := 0 } hmidlk
              rw [D4.2, hsnd]
            · intro q hq
              have hq' : q ∉ rest := fun hh =>
                hq (List.mem_cons_of_mem p0 hh)
              have hqp : q ≠ p0 := fun hh =>
                hq (hh ▸ List.mem_cons_self p0 rest)
              rw [D5 q hq']
              exact hfr q hqp
            · intro q hq hql
              have hq' : q ∉ rest := fun hh =>
                hq (List.mem_cons_of_mem p0 hh)
              have hqp : q ≠ p0 := fun hh =>
                hq (hh ▸ List.mem_cons_self p0 rest)
              apply D6 q hq'
              apply mem_lru_evictEntry _ pb3 p0 q true hev hqp
              apply mem_lru_flushEntry
              exact hql
        · rename_i hmp
          -- released regular page: clear the delay, append to the LRU
          have hdwlMid : (dwlRemove (setEntry pb p0
              (fun e' => { e' with delayWriteUntil := 0 })) p0).dwl =
              rest.reverse := by
            rw [dwl_dwlRemove, dwl_setEntry, hdwl, List.reverse_cons,
              List.filter_append]
            have h1 : ([p0].filter (fun q => q ≠ p0)) = [] := by simp
            have h2 : (rest.reverse.filter (fun q => q ≠ p0)) =
                rest.reverse := by
              apply List.filter_eq_self.mpr
              intro a ha
              simp only [ne_eq, decide_eq_true_eq]
              intro hh
              exact hp0nr (hh ▸ List.mem_reverse.mp ha)
            rw [h1, h2, List.append_nil]
          have hfr : ∀ q, q ≠ p0 →
              searchIndex (rpInsertAppend (dwlRemove (setEntry pb p0
                (fun e' => { e' with delayWriteUntil := 0 })) p0) p0) q =
              searchIndex pb q := by
            intro q hqp
            rw [searchIndex_rpInsertAppend, searchIndex_dwlRemove,
              searchIndex_setEntry pb p0 q
                (fun e' => { e' with delayWriteUntil := 0 }) (fun _ => rfl),
              if_neg (fun hh => hqp hh.symm)]
          have hlkN : searchIndex (rpInsertAppend (dwlRemove (setEntry pb p0
              (fun e' => { e' with delayWriteUntil := 0 })) p0) p0) p0 =
              some { e with delayWriteUntil := 0 } := by
            rw [searchIndex_rpInsertAppend, searchIndex_dwlRemove,
              searchIndex_setEntry pb p0 p0
                (fun e' => { e' with delayWriteUntil := 0 }) (fun _ => rfl),
              if_pos rfl, hs]
            rfl
          have hdwlN : (rpInsertAppend (dwlRemove (setEntry pb p0
              (fun e' => { e' with delayWriteUntil := 0 })) p0) p0).dwl =
              rest.reverse := by
            rw [dwl_rpInsertAppend, hdwlMid]
          have hlook' : ∀ p ∈ rest,
              searchIndex (rpInsertAppend (dwlRemove (setEntry pb p0
                (fun e' => { e' with delayWriteUntil := 0 })) p0) p0) p =
              searchIndex pb0 p := by
            intro p hp
            rw [hfr p (fun hh => hp0nr (hh ▸ hp))]
            exact hlook p (List.mem_cons_of_mem p0 hp)
          obtain ⟨D1, D2, D3, D4, D5, D6⟩ :=
            ih _ fd pbR fdR hnd' hsort' hlook' hdwlN h
          have hcondp0 : (decide (tick ≤ delayOfPage pb0 p0)) = false := by
            simp only [decide_eq_false_iff_not]
            omega
          have hbcondp0 : (decide (delayOfPage pb0 p0 < tick) &&
              isMpmdePage pb0 p0) = false := by
            rw [hmp0]
            simp only [hmp, Bool.and_false]
          refine ⟨?_, ?_, ?_, ⟨?_, ?_⟩, ?_, ?_⟩
          · rw [D1, List.filter_cons, hcondp0]
            simp
          · intro p hp hplt
            rcases List.mem_cons.mp hp with hpeq | hp'
            · subst hpeq
              constructor
              · intro hcontra
                rw [hmp0] at hcontra
                exact absurd hcontra hmp
              · intro _
                refine ⟨{ e with delayWriteUntil := 0 }, ?_, rfl, ?_⟩
                · rw [D5 p hp0nr, hlkN]
                · apply D6 p hp0nr
                  rw [lru_rpInsertAppend, lru_dwlRemove, lru_setEntry]
                  exact List.mem_append_right _ (List.mem_singleton.mpr rfl)
            · exact D2 p hp' hplt
          · intro p hp hpge
            rcases List.mem_cons.mp hp with hpeq | hp'
            · subst hpeq
              omega
            · rw [D3 p hp' hpge]
              exact hfr p (fun hh => hp0nr (hh ▸ hp'))
          · rw [D4.1, List.filter_cons, hbcondp0]
            simp
          · exact D4.2
          · intro q hq
            have hq' : q ∉ rest := fun hh =>
              hq (List.mem_cons_of_mem p0 hh)
            have hqp : q ≠ p0 := fun hh =>
              hq (hh ▸ List.mem_cons_self p0 rest)
            rw [D5 q hq']
            exact hfr q hqp
          · intro q hq hql
            have hq' : q ∉ rest := fun hh =>
              hq (List.mem_cons_of_mem p0 hh)
            apply D6 q hq'
            rw [lru_rpInsertAppend, lru_dwlRemove, lru_setEntry]
            exact List.mem_append_left _ hql
      · rename_i hge
        -- the deadline has not elapsed: the scan stops here
        simp only [Option.some.injEq, Prod.mk.injEq] at h
        obtain ⟨h1, h2⟩ := h
        subst h1
        subst h2
        have hall : ∀ p ∈ p0 :: rest, tick ≤ delayOfPage pb0 p := by
          intro p hp
          rcases List.mem_cons.mp hp with hpeq | hp'
          · subst hpeq
            omega
          · have := hrel p hp'
            omega
        refine ⟨?_, ?_, ?_, ⟨?_, rfl⟩, fun q _ => rfl, fun q _ hq => hq⟩
        · rw [List.filter_eq_self.mpr (fun a ha => decide_eq_true (hall a ha)),
            ← hdwl]
        · intro p hp hplt
          exact absurd hplt (by have := hall p hp; omega)
        · intro p hp _
          rfl
        · have hnilf : ((p0 :: rest).filter (fun p =>
              decide (delayOfPage pb0 p < tick) && isMpmdePage pb0 p)) = [] := by
            apply List.filter_eq_nil_iff.mpr
            intro a ha
            have := hall a ha
            simp only [Bool.and_eq_true, decide_eq_true_eq, not_and]
            intro hcontra
            omega
          rw [hnilf]
          rfl

/-- A regular delayed-write metadata page (delay until tick 3). -/
def dwRegEx : Entry :=
  { page := 0, addr := 0, size := 4, image := fun o => 60 + o
    isMetadata := true, isMpmde := false, isDirty := true, loaded := true
    modifiedThisTick := false, delayWriteUntil := 3 }

/-- A delayed-write multi-page metadata entry (delay until tick 7). -/
def dwMpEx : Entry :=
  { page := 1, addr := 4, size := 8, image := fun o => 80 + o
    isMetadata := true, isMpmde := true, isDirty := true, loaded := true
    modifiedThisTick := false, delayWriteUntil := 7 }

/-- A page buffer whose delayed-write list holds `dwMpEx` then
`dwRegEx`, sorted by decreasing `delay_write_until` (7, then 3). -/
def pbW : PB := { pbEx with index := [dwRegEx, dwMpEx], dwl := [1, 0] }

/-- C7: `H5PB_vfd_swmr__release_delayed_writes` walks the delayed-write
list from its tail (the list being sorted by decreasing
`delay_write_until` and duplicate-free) and releases exactly the
entries whose `delay_write_until` is strictly below the current tick:
afterwards the DWL holds exactly the entries whose deadline has not
elapsed (their index entries untouched); every released regular page is
still resident with its delay cleared and is on the LRU (it was
appended); every released MPMDE is flushed — the file bytes are the
initial bytes overlaid, in release (tail-first) order, with the images
of the released MPMDEs — and then evicted, so it is no longer
resident. -/
theorem C7_release_delayed_writes (pb : PB) (fd : FD) (tick : Nat)
    (pb2 : PB) (fd2 : FD)
    (hnd : pb.dwl.Nodup)
    (hsort : List.Pairwise (fun a b => delayOfPage pb b ≤ delayOfPage pb a)
      pb.dwl)
    (h : releaseDelayedWrites pb fd tick = some (pb2, fd2)) :
    pb2.dwl = pb.dwl.filter (fun p => tick ≤ delayOfPage pb p) ∧
    (∀ p ∈ pb.dwl, delayOfPage pb p < tick →
      (isMpmdePage pb p = true → searchIndex pb2 p = none) ∧
      (isMpmdePage pb p = false →
        ∃ e', searchIndex pb2 p = some e' ∧ e'.delayWriteUntil = 0 ∧
          p ∈ pb2.lru)) ∧
    (∀ p ∈ pb.dwl, tick ≤ delayOfPage pb p →
      searchIndex pb2 p = searchIndex pb p) ∧
    fd2.bytes = (pb.dwl.reverse.filter (fun p =>
      decide (delayOfPage pb p < tick) && isMpmdePage pb p)).foldl
      (flushBytes pb) fd.bytes ∧
    fd2.eof = fd.eof := by
  have hnd' : pb.dwl.reverse.Nodup := List.nodup_reverse.mpr hnd
  have hsort' : List.Pairwise
      (fun a b => delayOfPage pb a ≤ delayOfPage pb b) pb.dwl.reverse :=
    List.pairwise_reverse.mpr hsort
  obtain ⟨D1, D2, D3, D4, _, _⟩ := releaseDWLoop_spec pb tick pb.dwl.reverse
    pb fd pb2 fd2 hnd' hsort' (fun p _ => rfl) (List.reverse_reverse _).symm h
  refine ⟨?_, ?_, ?_, D4.1, D4.2⟩
  · rw [D1, List.filter_reverse, List.reverse_reverse]
  · intro p hp
    exact D2 p (List.mem_reverse.mpr hp)
  · intro p hp
    exact D3 p (List.mem_reverse.mpr hp)

/-! ## C4: the LRU purity invariant -/

/-- Every page on the LRU is resident, not an MPMDE, and not subject
to a delayed write. -/
def LruPure (pb : PB) : Prop :=
  ∀ p ∈ pb.lru, ∃ e, searchIndex pb p = some e ∧ e.isMpmde = false ∧
    e.delayWriteUntil = 0

/-- Every resident raw-data entry is a plain page with no delayed
write (only metadata entries can be MPMDEs or be delayed). -/
def RawClean (pb : PB) : Prop :=
  ∀ p e, searchIndex pb p = some e → e.isMetadata = false →
    e.isMpmde = false ∧ e.delayWriteUntil = 0

/-- The inductive invariant: LRU purity plus raw-entry cleanliness. -/
def PBInv (pb : PB) : Prop := LruPure pb ∧ RawClean pb

theorem PBInv_setEntry (pb : PB) (p : Nat) (f : Entry → Entry)
    (hpage : ∀ e, (f e).page = e.page)
    (hmp : ∀ e, (f e).isMpmde = e.isMpmde)
    (hmeta : ∀ e, (f e).isMetadata = e.isMetadata)
    (hdu : ∀ e, (f e).delayWriteUntil = e.delayWriteUntil ∨
      (f e).delayWriteUntil = 0)
    (h : PBInv pb) : PBInv (setEntry pb p f) := by
  obtain ⟨hl, hr⟩ := h
  constructor
  · intro q hq
    obtain ⟨e, he, hem, hed⟩ := hl q hq
    rw [searchIndex_setEntry pb p q f hpage]
    by_cases hpq : p = q
    · rw [if_pos hpq, he]
      refine ⟨f e, rfl, ?_, ?_⟩
      · rw [hmp]
        exact hem
      · rcases hdu e with h1 | h1
        · rw [h1]
          exact hed
        · exact h1
    · rw [if_neg hpq]
      exact ⟨e, he, hem, hed⟩
  · intro q e' he' hm
    rw [searchIndex_setEntry pb p q f hpage] at he'
    by_cases hpq : p = q
    · rw [if_pos hpq] at he'
      cases he0 : searchIndex pb q with
      | none => rw [he0] at he'; exact absurd he' (by simp)
      | some e =>
        rw [he0] at he'
        have hfe : f e = e' := Option.some.inj he'
        subst hfe
        rw [hmeta] at hm
        obtain ⟨h1, h2⟩ := hr q e he0 hm
        refine ⟨(hmp e).trans h1, ?_⟩
        rcases hdu e with h3 | h3
        · rw [h3]
          exact h2
        · exact h3
    · rw [if_neg hpq] at he'
      exact hr q e' he' hm

theorem PBInv_markEntryClean (pb : PB) (p : Nat) (h : PBInv pb) :
    PBInv (markEntryClean pb p) :=
  PBInv_setEntry pb p _ (fun _ => rfl) (fun _ => rfl) (fun _ => rfl)
    (fun _ => Or.inl rfl) h

theorem PBInv_rpRemove (pb : PB) (p : Nat) (h : PBInv pb) :
    PBInv (rpRemove pb p) :=
  ⟨fun q hq => h.1 q (List.mem_of_mem_filter hq), h.2⟩

theorem PBInv_rpAccess (pb : PB) (p : Nat)
    (hp : ∃ e, searchIndex pb p = some e ∧ e.isMpmde = false ∧
      e.delayWriteUntil = 0)
    (h : PBInv pb) : PBInv (rpAccess pb p) := by
  refine ⟨?_, h.2⟩
  intro q hq
  rcases List.mem_cons.mp hq with hq1 | hq1
  · subst hq1
    exact hp
  · exact h.1 q (List.mem_of_mem_filter hq1)

theorem PBInv_rpInsert (pb : PB) (p : Nat)
    (hp : ∃ e, searchIndex pb p = some e ∧ e.isMpmde = false ∧
      e.delayWriteUntil = 0)
    (h : PBInv pb) : PBInv (rpInsert pb p) := by
  refine ⟨?_, h.2⟩
  intro q hq
  rcases List.mem_cons.mp hq with hq1 | hq1
  · subst hq1
    exact hp
  · exact h.1 q hq1

theorem PBInv_rpInsertAppend (pb : PB) (p : Nat)
    (hp : ∃ e, searchIndex pb p = some e ∧ e.isMpmde = false ∧
      e.delayWriteUntil = 0)
    (h : PBInv pb) : PBInv (rpInsertAppend pb p) := by
  refine ⟨?_, h.2⟩
  intro q hq
  rcases List.mem_append.mp hq with hq1 | hq1
  · exact h.1 q hq1
  · rw [List.mem_singleton.mp hq1]
    exact hp

theorem PBInv_deleteFromIndex (pb : PB) (p : Nat) (hnl : p ∉ pb.lru)
    (h : PBInv pb) : PBInv (deleteFromIndex pb p) := by
  constructor
  · intro q hq
    have hqp : ¬ p = q := fun hh => hnl (hh ▸ hq)
    obtain ⟨e, he, hem, hed⟩ := h.1 q hq
    rw [searchIndex_deleteFromIndex, if_neg hqp]
    exact ⟨e, he, hem, hed⟩
  · intro q e' he' hm
    rw [searchIndex_deleteFromIndex] at he'
    by_cases hpq : p = q
    · rw [if_pos hpq] at he'
      exact absurd he' (by simp)
    · rw [if_neg hpq] at he'
      exact h.2 q e' he' hm

theorem PBInv_markEntryDirty (d : Nat → Nat) (pb : PB) (p : Nat)
    (h : PBInv pb) : PBInv (markEntryDirty d pb p) := by
  cases he : searchIndex pb p with
  | none =>
    simp only [markEntryDirty, he]
    exact h
  | some e =>
    simp only [markEntryDirty, he]
    split
    · -- the entry was clean and becomes dirty
      generalize hg : (if (pb.vfdSwmrWriter && e.loaded && e.isMetadata) = true
        then delayUntilOf d pb.curTick e.page else 0) = DU
      have hmetaOf : DU > 0 → e.isMetadata = true := by
        intro hdu
        by_cases hb : (pb.vfdSwmrWriter && e.loaded && e.isMetadata) = true
        · exact ((Bool.and_eq_true _ _).mp hb).2
        · rw [if_neg hb] at hg
          exact absurd hdu (by omega)
      split
      · -- a write delay is requested: off the LRU, onto the DWL
        rename_i hdu
        have hmeta : e.isMetadata = true := hmetaOf hdu
        have hX : PBInv (if (!e.isMpmde) = true then
            rpRemove (setEntry pb p (fun e' =>
              { e' with isDirty := true, delayWriteUntil := DU })) p
          else setEntry pb p (fun e' =>
            { e' with isDirty := true, delayWriteUntil := DU })) := by
          split
          · -- regular entry: removed from the LRU before joining the DWL
            constructor
            · intro q hq
              have hq1 : q ∈ pb.lru := List.mem_of_mem_filter hq
              have hqp : q ≠ p := by simpa using (List.mem_filter.mp hq).2
              obtain ⟨e0, he0, hem, hed⟩ := h.1 q hq1
              rw [searchIndex_rpRemove, searchIndex_setEntry pb p q
                (fun e' => { e' with isDirty := true, delayWriteUntil := DU })
                (fun _ => rfl), if_neg (fun hh => hqp hh.symm)]
              exact ⟨e0, he0, hem, hed⟩
            · intro q e' he' hm
              rw [searchIndex_rpRemove, searchIndex_setEntry pb p q
                (fun e' => { e' with isDirty := true, delayWriteUntil := DU })
                (fun _ => rfl)] at he'
              by_cases hpq : p = q
              · subst hpq
                rw [if_pos rfl, he, Option.map_some'] at he'
                rw [← Option.some.inj he'] at hm
                rw [show ({ e with isDirty := true, delayWriteUntil := DU } :
                  Entry).isMetadata = e.isMetadata from rfl, hmeta] at hm
                exact absurd hm (by simp)
              · rw [if_neg hpq] at he'
                exact h.2 q e' he' hm
          · -- MPMDE: by LRU purity it is not on the LRU at all
            rename_i hbm
            have hmpT : e.isMpmde = true := by simpa using hbm
            constructor
            · intro q hq
              have hq1 : q ∈ pb.lru := hq
              by_cases hqp : q = p
              · subst hqp
                obtain ⟨e0, he0, hem, _⟩ := h.1 q hq1
                rw [he] at he0
                rw [← Option.some.inj he0] at hem
                rw [hmpT] at hem
                exact absurd hem (by simp)
              · obtain ⟨e0, he0, hem, hed⟩ := h.1 q hq1
                rw [searchIndex_setEntry pb p q
                  (fun e' => { e' with isDirty := true, delayWriteUntil := DU })
                  (fun _ => rfl), if_neg (fun hh => hqp hh.symm)]
                exact ⟨e0, he0, hem, hed⟩
            · intro q e' he' hm
              rw [searchIndex_setEntry pb p q
                (fun e' => { e' with isDirty := true, delayWriteUntil := DU })
                (fun _ => rfl)] at he'
              by_cases hpq : p = q
              · subst hpq
                rw [if_pos rfl, he, Option.map_some'] at he'
                rw [← Option.some.inj he'] at hm
                rw [show ({ e with isDirty := true, delayWriteUntil := DU } :
                  Entry).isMetadata = e.isMetadata from rfl, hmeta] at hm
                exact absurd hm (by simp)
              · rw [if_neg hpq] at he'
                exact h.2 q e' he' hm
        exact hX
      · -- no delay requested
        rename_i hdun
        have hdu0 : DU = 0 := by omega
        split
        · rename_i hbm
          have hmpF : e.isMpmde = false := by simpa using hbm
          apply PBInv_rpAccess
          · refine ⟨{ e with isDirty := true, delayWriteUntil := DU }, ?_,
              hmpF, hdu0⟩
            rw [searchIndex_setEntry pb p p
              (fun e' => { e' with isDirty := true, delayWriteUntil := DU })
              (fun _ => rfl), if_pos rfl, he]
            rfl
          · exact PBInv_setEntry pb p _ (fun _ => rfl) (fun _ => rfl)
              (fun _ => rfl) (fun _ => Or.inr hdu0) h
        · exact PBInv_setEntry pb p _ (fun _ => rfl) (fun _ => rfl)
            (fun _ => rfl) (fun _ => Or.inr hdu0) h
    · -- already dirty
      split
      · rename_i hg2
        obtain ⟨h1, h2⟩ := (Bool.and_eq_true _ _).mp hg2
        exact PBInv_rpAccess pb p
          ⟨e, he, by simpa using h1, by simpa using h2⟩ h
      · exact h

theorem PBInv_flushEntry (pb : PB) (fd : FD) (p : Nat) (h : PBInv pb) :
    PBInv (flushEntry pb fd p).1 := by
  unfold flushEntry
  cases he : searchIndex pb p with
  | none => exact h
  | some e =>
    simp only
    split
    · rename_i hg
      obtain ⟨h1, h2⟩ := (Bool.and_eq_true _ _).mp hg
      apply PBInv_rpAccess
      · refine ⟨{ e with isDirty := false }, ?_, by simpa using h1,
          by simpa using h2⟩
        rw [searchIndex_markEntryClean, if_pos rfl, he]
        rfl
      · exact PBInv_markEntryClean pb p h
    · exact PBInv_markEntryClean pb p h

theorem PBInv_evictEntry (pb pb' : PB) (p : Nat) (force : Bool)
    (h0 : evictEntry pb p force = some pb') (h : PBInv pb) : PBInv pb' := by
  unfold evictEntry at h0
  cases he : searchIndex pb p with
  | none => rw [he] at h0; exact absurd h0 (by simp)
  | some e =>
    rw [he] at h0
    simp only at h0
    split at h0
    · exact absurd h0 (by simp)
    · split at h0
      · exact absurd h0 (by simp)
      · split at h0
        · exact absurd h0 (by simp)
        · have hpb' : pb' = deleteFromIndex
              (if !e.isMpmde then
                rpRemove (if force && e.isDirty then markEntryClean pb p else pb) p
              else if force && e.isDirty then markEntryClean pb p else pb) p :=
            (Option.some.inj h0).symm
          subst hpb'
          have hmkInv : PBInv
              (if force && e.isDirty then markEntryClean pb p else pb) := by
            split
            · exact PBInv_markEntryClean pb p h
            · exact h
          have hmklru :
              (if force && e.isDirty then markEntryClean pb p else pb).lru =
              pb.lru := by split <;> rfl
          split
          · apply PBInv_deleteFromIndex
            · intro hmem
              have := (List.mem_filter.mp hmem).2
              simp at this
            · exact PBInv_rpRemove _ p hmkInv
          · rename_i hbm
            have hmpT : e.isMpmde = true := by simpa using hbm
            apply PBInv_deleteFromIndex
            · rw [hmklru]
              intro hmem
              obtain ⟨e0, he0, hem, _⟩ := h.1 p hmem
              rw [he] at he0
              rw [← Option.some.inj he0] at hem
              rw [hmpT] at hem
              exact absurd hem (by simp)
            · exact hmkInv

theorem PBInv_createNewPage (pb : PB) (addr size : Nat) (type : MemT)
    (pb2 : PB) (pg : Nat)
    (h0 : createNewPage pb addr size type = some (pb2, pg))
    (h : PBInv pb) : PBInv pb2 := by
  simp only [createNewPage] at h0
  split at h0
  · exact absurd h0 (by simp)
  · rename_i hnone
    simp only [Option.some.injEq, Prod.mk.injEq] at h0
    obtain ⟨hpb2, hpg⟩ := h0
    subst hpg
    subst hpb2
    have hnotin : addr / pb.pageSize ∉ pb.lru := by
      intro hmem
      obtain ⟨e0, he0, _, _⟩ := h.1 _ hmem
      rw [hnone] at he0
      exact absurd he0 (by simp)
    split
    · rename_i hbm
      constructor
      · intro q hq
        rcases List.mem_cons.mp hq with hq1 | hq1
        · subst hq1
          refine ⟨{ page := addr / pb.pageSize, addr := addr, size := size, image := fun _ => 0, isMetadata := decide (type ≠ MemT.draw), isMpmde := decide (type ≠ MemT.draw) && decide (size > pb.pageSize), isDirty := false, loaded := false, modifiedThisTick := false, delayWriteUntil := 0 }, ?_, ?_, rfl⟩
          · rw [searchIndex_rpInsert, searchIndex_insertInIndex, if_pos rfl]
          · show (decide (type ≠ MemT.draw) && decide (size > pb.pageSize))
              = false
            rw [← Bool.not_eq_true']
            exact hbm
        · obtain ⟨e0, he0, hem, hed⟩ := h.1 q hq1
          have hqp : ¬ (addr / pb.pageSize = q) := fun hh =>
            hnotin (hh ▸ hq1)
          rw [searchIndex_rpInsert, searchIndex_insertInIndex, if_neg hqp]
          exact ⟨e0, he0, hem, hed⟩
      · intro q e' he' hm
        rw [searchIndex_rpInsert, searchIndex_insertInIndex] at he'
        by_cases hpq : addr / pb.pageSize = q
        · rw [if_pos hpq] at he'
          rw [← Option.some.inj he'] at hm ⊢
          have hm' : decide (type ≠ MemT.draw) = false := hm
          constructor
          · show (decide (type ≠ MemT.draw) && decide (size > pb.pageSize))
              = false
            rw [hm']
            simp
          · rfl
        · rw [if_neg hpq] at he'
          exact h.2 q e' he' hm
    · constructor
      · intro q hq
        obtain ⟨e0, he0, hem, hed⟩ := h.1 q hq
        have hqp : ¬ (addr / pb.pageSize = q) := fun hh => hnotin (hh ▸ hq)
        rw [searchIndex_insertInIndex, if_neg hqp]
        exact ⟨e0, he0, hem, hed⟩
      · intro q e' he' hm
        rw [searchIndex_insertInIndex] at he'
        by_cases hpq : addr / pb.pageSize = q
        · rw [if_pos hpq] at he'
          rw [← Option.some.inj he'] at hm ⊢
          have hm' : decide (type ≠ MemT.draw) = false := hm
          constructor
          · show (decide (type ≠ MemT.draw) && decide (size > pb.pageSize))
              = false
            rw [hm']
            simp
          · rfl
        · rw [if_neg hpq] at he'
          exact h.2 q e' he' hm

theorem PBInv_makeSpaceLoop (insertingMd : Bool) (pb : PB) (fd : FD)
    (walk : List Nat) (pb1 : PB) (fd1 : FD)
    (h : makeSpaceLoop insertingMd pb fd walk = some (pb1, fd1))
    (hI : PBInv pb) : PBInv pb1 := by
  induction pb, fd, walk using makeSpaceLoop.induct insertingMd with
  | case1 pb fd =>
    rw [makeSpaceLoop] at h
    simp at h
    rw [← h.1]
    exact hI
  | case2 pb fd q rest hlt =>
    rw [makeSpaceLoop, if_pos hlt] at h
    simp at h
    rw [← h.1]
    exact hI
  | case3 pb fd q rest hge hs =>
    rw [makeSpaceLoop, if_neg hge] at h
    generalize hg : searchIndex pb q = res at h
    rw [hg] at hs
    subst hs
    exact absurd h (by simp)
  | case4 pb fd q rest hge e hs hmod ih =>
    rw [makeSpaceLoop, if_neg hge] at h
    generalize hg : searchIndex pb q = res at h
    rw [hg] at hs
    subst hs
    simp only [hmod, if_true, eq_self_iff_true] at h
    exact ih h hI
  | case5 pb fd q rest hge e hs hmod hrd ih =>
    rw [makeSpaceLoop, if_neg hge] at h
    generalize hg : searchIndex pb q = res at h
    rw [hg] at hs
    subst hs
    simp only [hmod, hrd, if_true, if_false, eq_self_iff_true,
      Bool.false_eq_true] at h
    exact ih h hI
  | case6 pb fd q rest hge e hs hmod hrd hmd ih =>
    rw [makeSpaceLoop, if_neg hge] at h
    generalize hg : searchIndex pb q = res at h
    rw [hg] at hs
    subst hs
    simp only [hmod, hrd, hmd, if_true, if_false, eq_self_iff_true,
      Bool.false_eq_true] at h
    exact ih h hI
  | case7 pb fd q rest hge e hs hmod hrd hmd hdirty ih =>
    rw [makeSpaceLoop, if_neg hge] at h
    generalize hg : searchIndex pb q = res at h
    rw [hg] at hs
    subst hs
    simp only [hmod, hrd, hmd, hdirty, if_true, if_false, eq_self_iff_true,
      Bool.false_eq_true, dite_eq_ite] at h
    exact ih h (PBInv_flushEntry pb fd q hI)
  | case8 pb fd q rest hge e hs hmod hrd hmd hdirty hev =>
    rw [makeSpaceLoop, if_neg hge] at h
    generalize hg : searchIndex pb q = res at h
    rw [hg] at hs
    subst hs
    simp only [hmod, hrd, hmd, hdirty, if_true, if_false, eq_self_iff_true,
      Bool.false_eq_true, dite_eq_ite] at h
    generalize hg2 : evictEntry pb q false = res2 at h
    rw [hg2] at hev
    subst hev
    exact absurd h (by simp)
  | case9 pb fd q rest hge e hs hmod hrd hmd hdirty pb' hev ih =>
    rw [makeSpaceLoop, if_neg hge] at h
    generalize hg : searchIndex pb q = res at h
    rw [hg] at hs
    subst hs
    simp only [hmod, hrd, hmd, hdirty, if_true, if_false, eq_self_iff_true,
      Bool.false_eq_true, dite_eq_ite] at h
    generalize hg2 : evictEntry pb q false = res2 at h
    rw [hg2] at hev
    subst hev
    exact ih h (PBInv_evictEntry pb pb' q false hg2 hI)

theorem PBInv_makeSpace (pb : PB) (fd : FD) (t : MemT) (pb1 : PB) (fd1 : FD)
    (h : makeSpace pb fd t = some (pb1, fd1)) (hI : PBInv pb) : PBInv pb1 := by
  simp only [makeSpace] at h
  split at h
  · exact absurd h (by simp)
  · split at h
    · exact absurd h (by simp)
    · exact PBInv_makeSpaceLoop _ pb fd _ pb1 fd1 h hI

theorem PBInv_loadPage (pb : PB) (fd : FD) (addr : Nat) (type : MemT)
    (pb1 : PB) (fd1 : FD)
    (h : loadPage pb fd addr type = some (pb1, fd1)) (hI : PBInv pb) :
    PBInv pb1 := by
  simp only [loadPage] at h
  split at h
  · exact absurd h (by simp)
  · rename_i pbA fdA hstep
    split at h
    · exact absurd h (by simp)
    · rename_i pbB pg hcr
      simp only [Option.some.injEq, Prod.mk.injEq] at h
      obtain ⟨hpb1, _⟩ := h
      subst hpb1
      have hA : PBInv pbA := by
        split at hstep
        · exact PBInv_makeSpace pb fd type pbA fdA hstep hI
        · simp only [Option.some.injEq, Prod.mk.injEq] at hstep
          rw [← hstep.1]
          exact hI
      have hB : PBInv pbB :=
        PBInv_createNewPage pbA addr pb.pageSize type pbB pg hcr hA
      exact PBInv_setEntry pbB pg _ (fun _ => rfl) (fun _ => rfl)
        (fun _ => rfl) (fun _ => Or.inl rfl) hB

theorem PBInv_hitOrLoad (pb : PB) (fd : FD) (pa : Nat) (type : MemT)
    (pb1 : PB) (fd1 : FD)
    (h : hitOrLoad pb fd pa type = some (pb1, fd1)) (hI : PBInv pb) :
    PBInv pb1 := by
  unfold hitOrLoad at h
  split at h
  · simp only [Option.some.injEq, Prod.mk.injEq] at h
    rw [← h.1]
    exact hI
  · exact PBInv_loadPage pb fd pa type pb1 fd1 h hI

theorem PBInv_tlInsertIfNeeded (pb : PB) (p : Nat) (pb4 : PB)
    (h : tlInsertIfNeeded pb p = some pb4) (hI : PBInv pb) : PBInv pb4 := by
  unfold tlInsertIfNeeded at h
  split at h
  · exact absurd h (by simp)
  · split at h
    · simp only [Option.some.injEq] at h
      subst h
      exact PBInv_setEntry pb p _ (fun _ => rfl) (fun _ => rfl)
        (fun _ => rfl) (fun _ => Or.inl rfl) hI
    · simp only [Option.some.injEq] at h
      subst h
      exact hI

theorem PBInv_rpAccessGuard (pb : PB) (p : Nat) (e : Entry)
    (he : searchIndex pb p = some e) (hI : PBInv pb) :
    PBInv (if (!e.isMpmde && e.delayWriteUntil == 0) = true then
      rpAccess pb p else pb) := by
  split
  · rename_i hg
    obtain ⟨h1, h2⟩ := (Bool.and_eq_true _ _).mp hg
    exact PBInv_rpAccess pb p ⟨e, he, by simpa using h1, by simpa using h2⟩ hI
  · exact hI

theorem PBInv_readMeta (pb : PB) (fd : FD) (addr size : Nat)
    (prev : Option Nat) (pb' : PB) (fd' : FD) (bytes : List Nat)
    (prev' : Option Nat)
    (h : readMeta pb fd addr size prev = some (pb', fd', bytes, prev'))
    (hI : PBInv pb) : PBInv pb' := by
  simp only [readMeta] at h
  split at h
  · -- case 6: unaligned
    split at h
    · exact absurd h (by simp)
    · rename_i pb1 fd1 hHOL
      split at h
      · exact absurd h (by simp)
      · rename_i e he1
        simp only [Option.some.injEq, Prod.mk.injEq] at h
        rw [← h.1]
        exact PBInv_rpAccessGuard pb1 _ e he1
          (PBInv_hitOrLoad pb fd _ MemT.meta pb1 fd1 hHOL hI)
  · split at h
    · -- aligned, size at least a page
      split at h
      · -- case 7: no resident entry
        simp only [Option.some.injEq, Prod.mk.injEq] at h
        rw [← h.1]
        exact hI
      · rename_i e he1
        split at h
        · -- case 8: regular entry
          split at h
          · split at h
            · exact absurd h (by simp)
            · rename_i pb1 hev
              simp only [Option.some.injEq, Prod.mk.injEq] at h
              rw [← h.1]
              exact PBInv_evictEntry pb pb1 _ true hev hI
          · simp only [Option.some.injEq, Prod.mk.injEq] at h
            rw [← h.1]
            exact PBInv_rpAccessGuard pb _ e he1 hI
        · -- case 9: MPMDE
          simp only [Option.some.injEq, Prod.mk.injEq] at h
          rw [← h.1]
          exact PBInv_rpAccessGuard pb _ e he1 hI
    · -- case 10: aligned, smaller than a page
      split at h
      · exact absurd h (by simp)
      · rename_i pb1 fd1 hHOL
        split at h
        · exact absurd h (by simp)
        · rename_i e he1
          simp only [Option.some.injEq, Prod.mk.injEq] at h
          rw [← h.1]
          exact PBInv_rpAccessGuard pb1 _ e he1
            (PBInv_hitOrLoad pb fd _ MemT.meta pb1 fd1 hHOL hI)

theorem PBInv_writeMeta (delayOf : Nat → Nat) (pb : PB) (fd : FD)
    (addr size : Nat) (B : List Nat) (pb' : PB) (fd' : FD)
    (h : writeMeta delayOf pb fd addr size B = some (pb', fd'))
    (hI : PBInv pb) : PBInv pb' := by
  simp only [writeMeta] at h
  split at h
  · -- case 7: multi-page metadata entry
    split at h
    · exact absurd h (by simp)
    · rename_i pb1 hcr
      have hP1 : PBInv pb1 := by
        split at hcr
        · rw [← Option.some.inj hcr]
          exact hI
        · split at hcr
          · exact absurd hcr (by simp)
          · rename_i pbA pg hcn
            rw [← Option.some.inj hcr]
            exact PBInv_setEntry pbA pg _ (fun _ => rfl) (fun _ => rfl)
              (fun _ => rfl) (fun _ => Or.inl rfl)
              (PBInv_createNewPage pb addr size MemT.meta pbA pg hcn hI)
      split at h
      · exact absurd h (by simp)
      · rename_i pb4 hTL
        simp only [Option.some.injEq, Prod.mk.injEq] at h
        rw [← h.1]
        exact PBInv_tlInsertIfNeeded _ _ pb4 hTL
          (PBInv_markEntryDirty delayOf _ _
            (PBInv_setEntry pb1 _ _ (fun _ => rfl) (fun _ => rfl)
              (fun _ => rfl) (fun _ => Or.inl rfl) hP1))
  · -- case 8: metadata write of at most a page
    split at h
    · exact absurd h (by simp)
    · rename_i pb1 fd1 hHOL
      have hP1 : PBInv pb1 :=
        PBInv_hitOrLoad pb fd _ MemT.meta pb1 fd1 hHOL hI
      split at h
      · split at h
        · exact absurd h (by simp)
        · rename_i pb4 hTL
          simp only [Option.some.injEq, Prod.mk.injEq] at h
          rw [← h.1]
          exact PBInv_tlInsertIfNeeded _ _ pb4 hTL
            (PBInv_markEntryDirty delayOf _ _
              (PBInv_setEntry pb1 _ _ (fun _ => rfl) (fun _ => rfl)
                (fun _ => rfl) (fun _ => Or.inl rfl) hP1))
      · simp only [Option.some.injEq, Prod.mk.injEq] at h
        rw [← h.1]
        exact PBInv_markEntryDirty delayOf _ _
          (PBInv_setEntry pb1 _ _ (fun _ => rfl) (fun _ => rfl)
            (fun _ => rfl) (fun _ => Or.inl rfl) hP1)

theorem pageAddr_div (a ps : Nat) : a / ps * ps / ps = a / ps := by
  rcases Nat.eq_zero_or_pos ps with h | h
  · subst h
    simp
  · exact Nat.mul_div_cancel _ h

theorem meta_setEntry_flags (pb : PB) (p q : Nat) (f : Entry → Entry)
    (hf : ∀ e, (f e).page = e.page)
    (hfi : ∀ e, (f e).isMetadata = e.isMetadata) :
    (searchIndex (setEntry pb p f) q).map Entry.isMetadata =
      (searchIndex pb q).map Entry.isMetadata := by
  rw [searchIndex_setEntry pb p q f hf]
  split
  · cases searchIndex pb q with
    | none => rfl
    | some e => simp [hfi]
  · rfl

theorem meta_markEntryDirty (d : Nat → Nat) (pb : PB) (p q : Nat) :
    (searchIndex (markEntryDirty d pb p) q).map Entry.isMetadata =
      (searchIndex pb q).map Entry.isMetadata := by
  cases he : searchIndex pb p with
  | none => simp only [markEntryDirty, he]
  | some e =>
    simp only [markEntryDirty, he]
    repeat' split
    all_goals
      try simp only [searchIndex_dwlInsert, searchIndex_rpRemove,
        searchIndex_rpAccess]
    all_goals
      first
        | rfl
        | ((apply meta_setEntry_flags) <;> intro e0 <;> rfl)

/-- Lookup refinement on the metadata flag: every entry resident in
`pb'` was already resident in `pb` with the same `is_metadata`. -/
def MetaSub (pb' pb : PB) : Prop :=
  ∀ q e', searchIndex pb' q = some e' →
    ∃ e, searchIndex pb q = some e ∧ e'.isMetadata = e.isMetadata

theorem metaSub_refl (pb : PB) : MetaSub pb pb :=
  fun _ e' he' => ⟨e', he', rfl⟩

theorem metaSub_trans (pb2 pb1 pb0 : PB) (h21 : MetaSub pb2 pb1)
    (h10 : MetaSub pb1 pb0) : MetaSub pb2 pb0 := by
  intro q e' he'
  obtain ⟨e1, he1, hm1⟩ := h21 q e' he'
  obtain ⟨e0, he0, hm0⟩ := h10 q e1 he1
  exact ⟨e0, he0, hm1.trans hm0⟩

theorem metaSub_setEntry (pb : PB) (p : Nat) (f : Entry → Entry)
    (hf : ∀ e, (f e).page = e.page)
    (hfi : ∀ e, (f e).isMetadata = e.isMetadata) :
    MetaSub (setEntry pb p f) pb := by
  intro q e' he'
  rw [searchIndex_setEntry pb p q f hf] at he'
  by_cases hpq : p = q
  · rw [if_pos hpq] at he'
    cases he0 : searchIndex pb q with
    | none => rw [he0] at he'; exact absurd he' (by simp)
    | some e =>
      rw [he0, Option.map_some'] at he'
      refine ⟨e, rfl, ?_⟩
      rw [← Option.some.inj he']
      exact hfi e
  · rw [if_neg hpq] at he'
    exact ⟨e', he', rfl⟩

theorem metaSub_flushEntry (pb : PB) (fd : FD) (p : Nat) :
    MetaSub (flushEntry pb fd p).1 pb := by
  intro q e' he'
  rw [searchIndex_flushEntry] at he'
  by_cases hpq : p = q
  · rw [if_pos hpq] at he'
    cases he0 : searchIndex pb q with
    | none => rw [he0] at he'; exact absurd he' (by simp)
    | some e =>
      rw [he0, Option.map_some'] at he'
      refine ⟨e, rfl, ?_⟩
      rw [← Option.some.inj he']
  · rw [if_neg hpq] at he'
    exact ⟨e', he', rfl⟩

theorem metaSub_evictEntry (pb pb' : PB) (p : Nat) (force : Bool)
    (h : evictEntry pb p force = some pb') : MetaSub pb' pb := by
  intro q e' he'
  rw [searchIndex_evictEntry pb pb' p q force h] at he'
  by_cases hpq : p = q
  · rw [if_pos hpq] at he'
    exact absurd he' (by simp)
  · rw [if_neg hpq] at he'
    exact ⟨e', he', rfl⟩

theorem metaSub_makeSpaceLoop (insertingMd : Bool) (pb : PB) (fd : FD)
    (walk : List Nat) (pb1 : PB) (fd1 : FD)
    (h : makeSpaceLoop insertingMd pb fd walk = some (pb1, fd1)) :
    MetaSub pb1 pb := by
  induction pb, fd, walk using makeSpaceLoop.induct insertingMd with
  | case1 pb fd =>
    rw [makeSpaceLoop] at h
    simp at h
    rw [h.1]
    exact metaSub_refl pb1
  | case2 pb fd q rest hlt =>
    rw [makeSpaceLoop, if_pos hlt] at h
    simp at h
    rw [h.1]
    exact metaSub_refl pb1
  | case3 pb fd q rest hge hs =>
    rw [makeSpaceLoop, if_neg hge] at h
    generalize hg : searchIndex pb q = res at h
    rw [hg] at hs
    subst hs
    exact absurd h (by simp)
  | case4 pb fd q rest hge e hs hmod ih =>
    rw [makeSpaceLoop, if_neg hge] at h
    generalize hg : searchIndex pb q = res at h
    rw [hg] at hs
    subst hs
    simp only [hmod, if_true, eq_self_iff_true] at h
    exact ih h
  | case5 pb fd q rest hge e hs hmod hrd ih =>
    rw [makeSpaceLoop, if_neg hge] at h
    generalize hg : searchIndex pb q = res at h
    rw [hg] at hs
    subst hs
    simp only [hmod, hrd, if_true, if_false, eq_self_iff_true,
      Bool.false_eq_true] at h
    exact ih h
  | case6 pb fd q rest hge e hs hmod hrd hmd ih =>
    rw [makeSpaceLoop, if_neg hge] at h
    generalize hg : searchIndex pb q = res at h
    rw [hg] at hs
    subst hs
    simp only [hmod, hrd, hmd, if_true, if_false, eq_self_iff_true,
      Bool.false_eq_true] at h
    exact ih h
  | case7 pb fd q rest hge e hs hmod hrd hmd hdirty ih =>
    rw [makeSpaceLoop, if_neg hge] at h
    generalize hg : searchIndex pb q = res at h
    rw [hg] at hs
    subst hs
    simp only [hmod, hrd, hmd, hdirty, if_true, if_false, eq_self_iff_true,
      Bool.false_eq_true, dite_eq_ite] at h
    exact metaSub_trans pb1 _ pb (ih h) (metaSub_flushEntry pb fd q)
  | case8 pb fd q rest hge e hs hmod hrd hmd hdirty hev =>
    rw [makeSpaceLoop, if_neg hge] at h
    generalize hg : searchIndex pb q = res at h
    rw [hg] at hs
    subst hs
    simp only [hmod, hrd, hmd, hdirty, if_true, if_false, eq_self_iff_true,
      Bool.false_eq_true, dite_eq_ite] at h
    generalize hg2 : evictEntry pb q false = res2 at h
    rw [hg2] at hev
    subst hev
    exact absurd h (by simp)
  | case9 pb fd q rest hge e hs hmod hrd hmd hdirty pb' hev ih =>
    rw [makeSpaceLoop, if_neg hge] at h
    generalize hg : searchIndex pb q = res at h
    rw [hg] at hs
    subst hs
    simp only [hmod, hrd, hmd, hdirty, if_true, if_false, eq_self_iff_true,
      Bool.false_eq_true, dite_eq_ite] at h
    generalize hg2 : evictEntry pb q false = res2 at h
    rw [hg2] at hev
    subst hev
    exact metaSub_trans pb1 _ pb (ih h) (metaSub_evictEntry pb pb' q false hg2)

theorem metaSub_makeSpace (pb : PB) (fd : FD) (t : MemT) (pb1 : PB)
    (fd1 : FD) (h : makeSpace pb fd t = some (pb1, fd1)) : MetaSub pb1 pb := by
  simp only [makeSpace] at h
  split at h
  · exact absurd h (by simp)
  · split at h
    · exact absurd h (by simp)
    · exact metaSub_makeSpaceLoop _ pb fd _ pb1 fd1 h

theorem createNewPage_meta (pb : PB) (addr size : Nat) (type : MemT)
    (pb2 : PB) (pg : Nat)
    (h : createNewPage pb addr size type = some (pb2, pg)) :
    ∀ q e', searchIndex pb2 q = some e' →
      (∃ e, searchIndex pb q = some e ∧ e'.isMetadata = e.isMetadata) ∨
      e'.isMetadata = decide (type ≠ MemT.draw) := by
  simp only [createNewPage] at h
  split at h
  · exact absurd h (by simp)
  · simp only [Option.some.injEq, Prod.mk.injEq] at h
    obtain ⟨hpb2, hpg⟩ := h
    subst hpg
    subst hpb2
    intro q e' he'
    split at he'
    · rw [searchIndex_rpInsert, searchIndex_insertInIndex] at he'
      by_cases hpq : addr / pb.pageSize = q
      · rw [if_pos hpq] at he'
        right
        rw [← Option.some.inj he']
      · rw [if_neg hpq] at he'
        exact Or.inl ⟨e', he', rfl⟩
    · rw [searchIndex_insertInIndex] at he'
      by_cases hpq : addr / pb.pageSize = q
      · rw [if_pos hpq] at he'
        right
        rw [← Option.some.inj he']
      · rw [if_neg hpq] at he'
        exact Or.inl ⟨e', he', rfl⟩

theorem hitOrLoad_meta (pb : PB) (fd : FD) (pa : Nat) (type : MemT)
    (pb1 : PB) (fd1 : FD)
    (h : hitOrLoad pb fd pa type = some (pb1, fd1)) :
    ∀ q e', searchIndex pb1 q = some e' →
      (∃ e, searchIndex pb q = some e ∧ e'.isMetadata = e.isMetadata) ∨
      e'.isMetadata = decide (type ≠ MemT.draw) := by
  unfold hitOrLoad at h
  split at h
  · simp only [Option.some.injEq, Prod.mk.injEq] at h
    rw [← h.1]
    intro q e' he'
    exact Or.inl ⟨e', he', rfl⟩
  · simp only [loadPage] at h
    split at h
    · exact absurd h (by simp)
    · rename_i pbA fdA hstep
      split at h
      · exact absurd h (by simp)
      · rename_i pbB pg hcn
        simp only [Option.some.injEq, Prod.mk.injEq] at h
        obtain ⟨hpb1, _⟩ := h
        subst hpb1
        have hA : MetaSub pbA pb := by
          split at hstep
          · exact metaSub_makeSpace pb fd type pbA fdA hstep
          · simp only [Option.some.injEq, Prod.mk.injEq] at hstep
            rw [← hstep.1]
            exact metaSub_refl pb
        intro q e' he'
        obtain ⟨eB, heB, hmB⟩ := metaSub_setEntry pbB pg (fun e => { e with image := if pa ≥ fd.eof then e.image else fun off => fdA.bytes (pa + off), loaded := !decide (pa ≥ fd.eof) }) (fun _ => rfl) (fun _ => rfl) q e' he'
        rcases createNewPage_meta pbA pa pb.pageSize type pbB pg hcn q eB heB
          with ⟨e0, he0, hm0⟩ | hR
        · obtain ⟨e00, he00, hm00⟩ := hA q e0 he0
          exact Or.inl ⟨e00, he00, (hmB.trans hm0).trans hm00⟩
        · exact Or.inr (hmB.trans hR)

theorem PBInv_readRawOverlayFold (addr size fPA lPA nT : Nat) (pb : PB) :
    ∀ (is : List Nat) (st : PB × (Nat → Nat)),
    st.1.index = pb.index → st.1.pageSize = pb.pageSize → PBInv st.1 →
    (∀ i ∈ is, ∀ e, searchIndex pb (fPA / pb.pageSize + i) = some e →
      e.isMetadata = false) →
    (is.foldl (readRawOverlayStep addr size fPA lPA nT) st).1.index =
      pb.index ∧
    (is.foldl (readRawOverlayStep addr size fPA lPA nT) st).1.pageSize =
      pb.pageSize ∧
    PBInv (is.foldl (readRawOverlayStep addr size fPA lPA nT) st).1 := by
  intro is
  induction is with
  | nil =>
    intro st h1 h2 h3 _
    exact ⟨h1, h2, h3⟩
  | cons i rest ih =>
    intro st h1 h2 h3 hcov
    rw [List.foldl_cons]
    have hlk : ∀ q, searchIndex st.1 q = searchIndex pb q := by
      intro q
      unfold searchIndex
      rw [h1]
    have hcov' : ∀ j ∈ rest, ∀ e,
        searchIndex pb (fPA / pb.pageSize + j) = some e →
        e.isMetadata = false :=
      fun j hj => hcov j (List.mem_cons_of_mem _ hj)
    cases he : searchIndex st.1 (fPA / st.1.pageSize + i) with
    | none =>
      have hstep : readRawOverlayStep addr size fPA lPA nT st i = st := by
        simp only [readRawOverlayStep]
        rw [he]
      rw [hstep]
      exact ih st h1 h2 h3 hcov'
    | some e =>
      have hepb : searchIndex pb (fPA / pb.pageSize + i) = some e := by
        rw [← h2, ← hlk]
        exact he
      have hmeta : e.isMetadata = false :=
        hcov i (List.mem_cons_self _ _) e hepb
      obtain ⟨hmp, hdu⟩ := h3.2 _ e (by exact he) hmeta
      cases hd : e.isDirty with
      | false =>
        have hstep : readRawOverlayStep addr size fPA lPA nT st i = st := by
          simp only [readRawOverlayStep]
          rw [he]
          simp [hd]
        rw [hstep]
        exact ih st h1 h2 h3 hcov'
      | true =>
        have hstep : (readRawOverlayStep addr size fPA lPA nT st i).1 =
            rpAccess st.1 (fPA / st.1.pageSize + i) := by
          simp only [readRawOverlayStep]
          rw [he]
          simp [hd]
        apply ih (readRawOverlayStep addr size fPA lPA nT st i) ?_ ?_ ?_ hcov'
        · rw [hstep]
          exact h1
        · rw [hstep]
          exact h2
        · rw [hstep]
          exact PBInv_rpAccess st.1 _ ⟨e, he, hmp, hdu⟩ h3

theorem PBInv_readRaw (pb : PB) (fd : FD) (addr size : Nat) (pb' : PB)
    (fd' : FD) (bytes : List Nat)
    (h : readRaw pb fd addr size = some (pb', fd', bytes))
    (hsz : 0 < size) (hraw : RawRange pb addr size) (hI : PBInv pb) :
    PBInv pb' := by
  have hle : addr / pb.pageSize ≤ (addr + size - 1) / pb.pageSize :=
    Nat.div_le_div_right (by omega)
  simp only [readRaw] at h
  split at h
  · -- case 3: bypass read, then overlay resident dirty pages
    simp only [Option.some.injEq, Prod.mk.injEq] at h
    rw [← h.1]
    refine (PBInv_readRawOverlayFold addr size _ _ _ pb _ _ rfl rfl hI ?_).2.2
    intro i hi e he
    have hi' := List.mem_range.mp hi
    rw [pageAddr_div] at he
    apply hraw _ e he
    · exact Nat.le_add_right _ _
    · omega
  · -- case 4: served from the page buffer
    split at h
    · exact absurd h (by simp)
    · rename_i pb1 fd1 hHOL1
      split at h
      · exact absurd h (by simp)
      · rename_i e1 he1
        have hP1 : PBInv pb1 :=
          PBInv_hitOrLoad pb fd _ MemT.draw pb1 fd1 hHOL1 hI
        have hm1 : e1.isMetadata = false := by
          rcases hitOrLoad_meta pb fd _ MemT.draw pb1 fd1 hHOL1 _ e1 he1 with
            ⟨e0, he0, hm0⟩ | hR
          · rw [hm0]
            exact hraw _ e0 he0 (Nat.le_refl _) hle
          · rw [hR]
            decide
        obtain ⟨hmp1, hdu1⟩ := hP1.2 _ e1 he1 hm1
        have hP2 : PBInv (rpAccess pb1 (addr / pb.pageSize)) :=
          PBInv_rpAccess pb1 _ ⟨e1, he1, hmp1, hdu1⟩ hP1
        split at h
        · split at h
          · exact absurd h (by simp)
          · rename_i pb3 fd2 hHOL2
            split at h
            · exact absurd h (by simp)
            · rename_i e2 he2
              simp only [Option.some.injEq, Prod.mk.injEq] at h
              rw [← h.1]
              have hP3 : PBInv pb3 :=
                PBInv_hitOrLoad _ fd1 _ MemT.draw pb3 fd2 hHOL2 hP2
              have hm2 : e2.isMetadata = false := by
                rcases hitOrLoad_meta _ fd1 _ MemT.draw pb3 fd2 hHOL2 _ e2 he2
                  with ⟨e0, he0, hm0⟩ | hR
                · rw [searchIndex_rpAccess] at he0
                  rcases hitOrLoad_meta pb fd _ MemT.draw pb1 fd1 hHOL1 _ e0
                    he0 with ⟨e00, he00, hm00⟩ | hR0
                  · rw [hm0, hm00]
                    exact hraw _ e00 he00 hle (Nat.le_refl _)
                  · rw [hm0, hR0]
                    decide
                · rw [hR]
                  decide
              obtain ⟨hmp2, hdu2⟩ := hP3.2 _ e2 he2 hm2
              exact PBInv_rpAccess pb3 _ ⟨e2, he2, hmp2, hdu2⟩ hP3
        · simp only [Option.some.injEq, Prod.mk.injEq] at h
          rw [← h.1]
          exact hP2

theorem PBInv_writeRawFold (delayOf : Nat → Nat)
    (addr size fPA lPA nT : Nat) (B : List Nat) :
    ∀ (is : List Nat) (st : Option PB) (pbF : PB),
    is.foldl (writeRawPatchStep delayOf addr size fPA lPA nT B) st =
      some pbF →
    (∀ pbc, st = some pbc → PBInv pbc) → PBInv pbF := by
  intro is
  induction is with
  | nil =>
    intro st pbF h hP
    cases st with
    | none => exact absurd h (by simp)
    | some pbc =>
      rw [← Option.some.inj h]
      exact hP pbc rfl
  | cons i rest ih =>
    intro st pbF h hP
    rw [List.foldl_cons] at h
    apply ih _ pbF h
    intro pbc' hstep
    cases st with
    | none => exact absurd hstep (by simp [writeRawPatchStep])
    | some pbc =>
      have hPc := hP pbc rfl
      simp only [writeRawPatchStep] at hstep
      split at hstep
      · rw [← Option.some.inj hstep]
        exact hPc
      · rename_i e he
        split at hstep
        · apply PBInv_evictEntry _ pbc' _ true hstep
          split
          · exact PBInv_markEntryClean pbc _ hPc
          · exact hPc
        · split at hstep
          · rw [← Option.some.inj hstep]
            exact PBInv_markEntryDirty delayOf _ _
              (PBInv_setEntry pbc _ _ (fun _ => rfl) (fun _ => rfl)
                (fun _ => rfl) (fun _ => Or.inl rfl) hPc)
          · split at hstep
            · rw [← Option.some.inj hstep]
              exact PBInv_markEntryDirty delayOf _ _
                (PBInv_setEntry pbc _ _ (fun _ => rfl) (fun _ => rfl)
                  (fun _ => rfl) (fun _ => Or.inl rfl) hPc)
            · rw [← Option.some.inj hstep]
              exact hPc

theorem PBInv_writeRaw (delayOf : Nat → Nat) (pb : PB) (fd : FD)
    (addr size : Nat) (B : List Nat) (pb' : PB) (fd' : FD)
    (h : writeRaw delayOf pb fd addr size B = some (pb', fd'))
    (hI : PBInv pb) : PBInv pb' := by
  simp only [writeRaw] at h
  split at h
  · -- case 3: bypass write, then update intersecting pages
    split at h
    · exact absurd h (by simp)
    · rename_i pb1 hfold
      simp only [Option.some.injEq, Prod.mk.injEq] at h
      rw [← h.1]
      exact PBInv_writeRawFold delayOf addr size _ _ _ B _ _ pb1 hfold
        (fun pbc hc => by rw [← Option.some.inj hc]; exact hI)
  · -- case 4: write into the page buffer
    split at h
    · exact absurd h (by simp)
    · rename_i pb1 fd1 hHOL1
      have hP1 : PBInv pb1 :=
        PBInv_hitOrLoad pb fd _ MemT.draw pb1 fd1 hHOL1 hI
      split at h
      · split at h
        · exact absurd h (by simp)
        · rename_i pb4 fd2 hHOL2
          simp only [Option.some.injEq, Prod.mk.injEq] at h
          rw [← h.1]
          exact PBInv_markEntryDirty delayOf _ _
            (PBInv_setEntry pb4 _ _ (fun _ => rfl) (fun _ => rfl)
              (fun _ => rfl) (fun _ => Or.inl rfl)
              (PBInv_hitOrLoad _ fd1 _ MemT.draw pb4 fd2 hHOL2
                (PBInv_markEntryDirty delayOf _ _
                  (PBInv_setEntry pb1 _ _ (fun _ => rfl) (fun _ => rfl)
                    (fun _ => rfl) (fun _ => Or.inl rfl) hP1))))
      · simp only [Option.some.injEq, Prod.mk.injEq] at h
        rw [← h.1]
        exact PBInv_markEntryDirty delayOf _ _
          (PBInv_setEntry pb1 _ _ (fun _ => rfl) (fun _ => rfl)
            (fun _ => rfl) (fun _ => Or.inl rfl) hP1)

theorem PBInv_releaseTLLoop : ∀ (l : List Nat) (pb : PB) (fd : FD)
    (pbR : PB) (fdR : FD), releaseTLLoop pb fd l = some (pbR, fdR) →
    PBInv pb → PBInv pbR := by
  intro l
  induction l with
  | nil =>
    intro pb fd pbR fdR h hI
    simp only [releaseTLLoop, Option.some.injEq, Prod.mk.injEq] at h
    rw [← h.1]
    exact hI
  | cons p rest ih =>
    intro pb fd pbR fdR h hI
    simp only [releaseTLLoop] at h
    split at h
    · exact absurd h (by simp)
    · rename_i e he
      split at h
      · split at h
        · exact absurd h (by simp)
        · rename_i pb3 hev
          apply ih _ _ pbR fdR h
          apply PBInv_evictEntry _ pb3 _ true hev
          apply PBInv_flushEntry
          exact PBInv_setEntry (tlRemove pb p) p _ (fun _ => rfl)
            (fun _ => rfl) (fun _ => rfl) (fun _ => Or.inl rfl) hI
      · apply ih _ _ pbR fdR h
        exact PBInv_setEntry (tlRemove pb p) p _ (fun _ => rfl)
          (fun _ => rfl) (fun _ => rfl) (fun _ => Or.inl rfl) hI

theorem PBInv_releaseDWLoop : ∀ (l : List Nat) (pb : PB) (fd : FD)
    (tick : Nat) (pbR : PB) (fdR : FD),
    releaseDWLoop pb fd tick l = some (pbR, fdR) → PBInv pb → PBInv pbR := by
  intro l
  induction l with
  | nil =>
    intro pb fd tick pbR fdR h hI
    simp only [releaseDWLoop, Option.some.injEq, Prod.mk.injEq] at h
    rw [← h.1]
    exact hI
  | cons p rest ih =>
    intro pb fd tick pbR fdR h hI
    simp only [releaseDWLoop] at h
    split at h
    · exact absurd h (by simp)
    · rename_i e he
      split at h
      · split at h
        · split at h
          · exact absurd h (by simp)
          · rename_i pb3 hev
            apply ih _ _ tick pbR fdR h
            apply PBInv_evictEntry _ pb3 _ true hev
            apply PBInv_flushEntry
            exact PBInv_setEntry pb p _ (fun _ => rfl) (fun _ => rfl)
              (fun _ => rfl) (fun _ => Or.inr rfl) hI
        · rename_i hbm
          apply ih _ _ tick pbR fdR h
          apply PBInv_rpInsertAppend _ p
          · refine ⟨{ e with delayWriteUntil := 0 }, ?_, ?_, rfl⟩
            · rw [searchIndex_dwlRemove, searchIndex_setEntry pb p p
                (fun e' => { e' with delayWriteUntil := 0 }) (fun _ => rfl),
                if_pos rfl, he]
              rfl
            · simpa using hbm
          · exact PBInv_setEntry pb p _ (fun _ => rfl) (fun _ => rfl)
              (fun _ => rfl) (fun _ => Or.inr rfl) hI
      · simp only [Option.some.injEq, Prod.mk.injEq] at h
        rw [← h.1]
        exact hI

theorem PBInv_H5PB_read (pb : PB) (fd : FD) (type : MemT) (addr size : Nat)
    (prev : Option Nat) (pb' : PB) (fd' : FD) (bytes : List Nat)
    (prev' : Option Nat)
    (h : H5PB_read pb fd type addr size prev = some (pb', fd', bytes, prev'))
    (hsz : type = MemT.draw → 0 < size)
    (hraw : type = MemT.draw → RawRange pb addr size)
    (hI : PBInv pb) : PBInv pb' := by
  simp only [H5PB_read] at h
  split at h
  · simp only [Option.some.injEq, Prod.mk.injEq] at h
    rw [← h.1]
    exact hI
  · split at h
    · rename_i hb
      have htype : type = MemT.draw := by
        cases type
        · rfl
        · exact absurd hb (by decide)
      subst htype
      split at h
      · exact absurd h (by simp)
      · rename_i pbX fdX bytesX hrr
        simp only [Option.some.injEq, Prod.mk.injEq] at h
        rw [← h.1]
        exact PBInv_readRaw pb fd addr size pbX fdX bytesX hrr (hsz rfl)
          (hraw rfl) hI
    · exact PBInv_readMeta pb fd addr size prev pb' fd' bytes prev' h hI

theorem PBInv_H5PB_write (delayOf : Nat → Nat) (pb : PB) (fd : FD)
    (type : MemT) (addr size : Nat) (B : List Nat) (pb' : PB) (fd' : FD)
    (h : H5PB_write delayOf pb fd type addr size B = some (pb', fd'))
    (hI : PBInv pb) : PBInv pb' := by
  simp only [H5PB_write] at h
  split at h
  · simp only [Option.some.injEq, Prod.mk.injEq] at h
    rw [← h.1]
    exact hI
  · split at h
    · exact PBInv_writeRaw delayOf pb fd addr size B pb' fd' h hI
    · exact PBInv_writeMeta delayOf pb fd addr size B pb' fd' h hI

theorem PBInv_step (delayOf : Nat → Nat) (s s' : Sys)
    (h : Step delayOf s s') (hI : PBInv s.pb) : PBInv s'.pb := by
  cases h with
  | readMeta addr size pb' fd' bytes prev' h =>
    exact PBInv_H5PB_read s.pb s.fd MemT.meta addr size s.prevAddr pb' fd'
      bytes prev' h (fun hc => absurd hc (by decide))
      (fun hc => absurd hc (by decide)) hI
  | readRaw addr size pb' fd' bytes prev' hsz hraw h =>
    exact PBInv_H5PB_read s.pb s.fd MemT.draw addr size s.prevAddr pb' fd'
      bytes prev' h (fun _ => hsz) (fun _ => hraw) hI
  | writeMeta addr size B pb' fd' h =>
    exact PBInv_H5PB_write delayOf s.pb s.fd MemT.meta addr size B pb' fd'
      h hI
  | writeRaw addr size B pb' fd' hsz hraw h =>
    exact PBInv_H5PB_write delayOf s.pb s.fd MemT.draw addr size B pb' fd'
      h hI
  | setTick ft pb' h =>
    unfold setTick at h
    split at h
    · exact absurd h (by simp)
    · rw [← Option.some.inj h]
      exact hI
  | releaseTickList pb' fd' h =>
    unfold releaseTickList at h
    exact PBInv_releaseTLLoop _ s.pb s.fd pb' fd' h hI
  | releaseDelayedWrites pb' fd' h =>
    unfold releaseDelayedWrites at h
    exact PBInv_releaseDWLoop _ s.pb s.fd s.fileTick pb' fd' h hI

/-- `pbEx` in VFD-SWMR-writer mode. -/
def pbWr : PB := { pbEx with vfdSwmrWriter := true }

/-- An initial (freshly created) system state over `pbWr`. -/
def sysWr0 : Sys := { pb := pbWr, fd := fdEx, prevAddr := none, fileTick := 0 }

/-- C4 counterexample: the claimed invariant's `modified_this_tick`
conjunct is false.  From a freshly created page buffer in
VFD-SWMR-writer mode, one small metadata write reaches a state whose
LRU holds page 0 while the resident entry at page 0 has
`modified_this_tick = true`: `H5PB__write_meta` moves the entry to the
LRU head (via `H5PB__mark_entry_dirty`) and then inserts it in the
tick list setting `modified_this_tick`, without removing it from the
LRU. -/
theorem C4_lru_purity_counterexample :
    Init sysWr0 ∧
    ∃ s', Reachable (fun _ => 0) sysWr0 s' ∧
      ∃ p e, p ∈ s'.pb.lru ∧ searchIndex s'.pb p = some e ∧
        e.modifiedThisTick = true := by
  refine ⟨⟨rfl, rfl, rfl, rfl⟩, _,
    Relation.ReflTransGen.single
      (Step.writeMeta sysWr0 0 2 [9, 9] _ _ rfl), 0, _, ?_, rfl, rfl⟩
  decide

/-- C4 (amended): the LRU purity invariant without the
`modified_this_tick` conjunct.  In every reachable state of the page
buffer system, every page on the LRU is resident with an entry that is
not an MPMDE and has no pending delayed write
(`delay_write_until = 0`).  (Entries made `modified_this_tick` by a
writer-mode metadata write remain on the LRU, so the spec's third
conjunct does not hold — see the counterexample.) -/
theorem C4_lru_purity_amended (delayOf : Nat → Nat) (s0 s : Sys)
    (hinit : Init s0) (hreach : Reachable delayOf s0 s) :
    ∀ p ∈ s.pb.lru, ∃ e, searchIndex s.pb p = some e ∧
      e.isMpmde = false ∧ e.delayWriteUntil = 0 := by
  have hbase : PBInv s0.pb := by
    obtain ⟨h1, h2, _, _⟩ := hinit
    constructor
    · intro p hp
      rw [h2] at hp
      exact absurd hp (List.not_mem_nil p)
    · intro p e he _
      unfold searchIndex at he
      rw [h1] at he
      exact absurd he (by simp)
  unfold Reachable at hreach
  have hInv : PBInv s.pb := by
    induction hreach with
    | refl => exact hbase
    | tail hab hbc ih => exact PBInv_step delayOf _ _ hbc ih
  exact hInv.1

/-- C4 witness: the amended invariant at the concrete reachable state
of the counterexample run — page 0 is on the LRU and its entry is a
regular page with no delayed write. -/
theorem C4_lru_purity_amended_witness :
    ∃ s', Reachable (fun _ => 0) sysWr0 s' ∧
      ∃ e, searchIndex s'.pb 0 = some e ∧ e.isMpmde = false ∧
        e.delayWriteUntil = 0 :=
  ⟨_, Relation.ReflTransGen.single
      (Step.writeMeta sysWr0 0 2 [9, 9] _ _ rfl),
    C4_lru_purity_amended (fun _ => 0) sysWr0 _ ⟨rfl, rfl, rfl, rfl⟩
      (Relation.ReflTransGen.single
        (Step.writeMeta sysWr0 0 2 [9, 9] _ _ rfl)) 0 (by decide)⟩

/-- C7 witness: on `pbW` (DWL `[1, 0]`, deadlines 7 and 3) at tick 5,
the release keeps exactly page 1 on the DWL. -/
theorem C7_release_delayed_writes_witness :
    pbW.dwl.Nodup ∧
    List.Pairwise (fun a b => delayOfPage pbW b ≤ delayOfPage pbW a)
      pbW.dwl ∧
    ∃ pb2 fd2, releaseDelayedWrites pbW fdEx 5 = some (pb2, fd2) ∧
      pb2.dwl = pbW.dwl.filter (fun p => 5 ≤ delayOfPage pbW p) ∧
      pb2.dwl = [1] := by
  refine ⟨by decide, by decide, ?_⟩
  refine ⟨_, _, rfl, ?_, by decide⟩
  exact (C7_release_delayed_writes pbW fdEx 5 _ _ (by decide) (by decide)
    rfl).1

end HDF5PB
